import Mathlib

/-! # TraefikCookiePathReplacement

A shallow embedding of `cookie_path_replacement.go`: the rule compiler
(`ReplacementConfig.compile`, `New`) and the response interceptor
(`responseWriter.WriteHeader`), together with a model of the parts of Go's
standard library the plugin calls (`regexp`, `strings.Contains`,
`strings.ReplaceAll`, `http.SetCookie`).

Go strings are modelled as lists of Unicode code points (`GoString`), i.e. as
valid UTF-8 text; offsets count code points.
-/

namespace TraefikCookiePathReplacement

/-- Go `string`, as the list of its code points. -/
abbrev GoString := List Char

/-! ## Model of Go's `regexp/syntax`: syntax tree and parser

The model covers a fragment of the RE2 syntax accepted by `regexp.Compile`
(Perl flags): literals, `.`, `^`, `$`, `\A`, `\z`, alternation, capturing,
named and non-capturing groups, `*`, `+`, `?` and their non-greedy forms,
bracket classes with ranges and negation, the Perl classes `\d \w \s`
(and `\D \W \S` outside brackets), and escaped punctuation. Constructs outside
the fragment (flags, counted repetition, word boundaries, Unicode classes,
octal and hex escapes, `\Q..\E`, POSIX classes, the group form `(?<name>`, and
`*` or `+` applied to an operand that can match the empty string) are rejected
with `ErrorCode.unsupported`. Implementation limits of the library (maximum
nesting depth, maximum program size) are not modelled.
-/

/-- Parsed regular expression (the operators of `syntax.Regexp` used here). -/
inductive Regex where
  | emptyMatch : Regex
  | literal (c : Char) : Regex
  | charClass (neg : Bool) (ranges : List (Char × Char)) : Regex
  | anyCharNotNL : Regex
  | beginText : Regex
  | endText : Regex
  | capture (idx : Nat) (name : GoString) (sub : Regex) : Regex
  | star (greedy : Bool) (sub : Regex) : Regex
  | plus (greedy : Bool) (sub : Regex) : Regex
  | quest (greedy : Bool) (sub : Regex) : Regex
  | concat (a b : Regex) : Regex
  | alternate (a b : Regex) : Regex
  deriving Repr, DecidableEq

/-- Error codes of `syntax.Error`, plus the two codes of the model itself. -/
inductive ErrorCode where
  | ErrInvalidCharRange
  | ErrInvalidEscape
  | ErrInvalidNamedCapture
  | ErrInvalidRepeatOp
  | ErrMissingBracket
  | ErrMissingParen
  | ErrMissingRepeatArgument
  | ErrTrailingBackslash
  | ErrUnexpectedParen
  | unsupported
  | outOfFuel
  deriving Repr, DecidableEq

def isDigit (c : Char) : Bool := decide ('0' ≤ c) && decide (c ≤ '9')

def isUpper (c : Char) : Bool := decide ('A' ≤ c) && decide (c ≤ 'Z')

def isLower (c : Char) : Bool := decide ('a' ≤ c) && decide (c ≤ 'z')

def isalnum (c : Char) : Bool := isDigit c || isUpper c || isLower c

/-- The function `isValidCaptureName`: non-empty, only `_` and alphanumerics. -/
def isValidCaptureName (name : GoString) : Bool :=
  !name.isEmpty && name.all fun c => c == '_' || isalnum c

def perlDigit : List (Char × Char) := [('0', '9')]

def perlSpace : List (Char × Char) := [('\t', '\n'), (Char.ofNat 12, '\r'), (' ', ' ')]

def perlWord : List (Char × Char) := [('0', '9'), ('A', 'Z'), ('_', '_'), ('a', 'z')]

/-- An open parenthesis waiting for its `)`, with what was read before it. -/
structure Frame where
  cap : Option (Nat × GoString)
  alts : List Regex
  cur : List Regex
  deriving Repr, DecidableEq

/-- Parser state: `cur` holds the operands of the concatenation being read and
`alts` the finished alternatives of the current group, most recent first;
`stack` holds the enclosing open groups, innermost first. -/
structure parser where
  stack : List Frame
  alts : List Regex
  cur : List Regex
  numCap : Nat
  deriving Repr, DecidableEq

/-- Collapse the operands of a concatenation (most recent first). -/
def collapseConcat : List Regex → Regex
  | [] => .emptyMatch
  | r :: rs => rs.foldl (fun acc x => .concat x acc) r

/-- Collapse alternatives: `last` is the final one, `alts` the earlier ones, most recent first. -/
def collapseAlternate (last : Regex) (alts : List Regex) : Regex :=
  alts.foldl (fun acc x => .alternate x acc) last

def parser.push (p : parser) (re : Regex) : parser :=
  { p with cur := re :: p.cur }

def parser.openGroup (p : parser) (cap : Option (Nat × GoString)) : parser :=
  { p with stack := ⟨cap, p.alts, p.cur⟩ :: p.stack, alts := [], cur := [] }

/-- Whether the expression can match the empty string. -/
def Regex.nullable : Regex → Bool
  | .emptyMatch => true
  | .literal _ => false
  | .charClass _ _ => false
  | .anyCharNotNL => false
  | .beginText => true
  | .endText => true
  | .capture _ _ sub => sub.nullable
  | .star _ _ => true
  | .plus _ sub => sub.nullable
  | .quest _ _ => true
  | .concat a b => a.nullable && b.nullable
  | .alternate a b => a.nullable || b.nullable

/-- The method `parser.repeat`: apply a repetition operator to the last operand.
`loop` tells `*` and `+` from `?`. -/
def parser.repeatOp (p : parser) (op : Bool → Regex → Regex) (loop : Bool) (after : List Char)
    (lastRepeat : Bool) : Except ErrorCode (parser × List Char) :=
  let ga : Bool × List Char := match after with
    | '?' :: t => (false, t)
    | _ => (true, after)
  if lastRepeat then .error .ErrInvalidRepeatOp
  else match p.cur with
    | [] => .error .ErrMissingRepeatArgument
    | sub :: rest =>
      if loop && sub.nullable then .error .unsupported
      else .ok ({ p with cur := op ga.1 sub :: rest }, ga.2)

/-- The function `parseEscape`, applied to the text after the backslash. -/
def parseEscape : List Char → Except ErrorCode (Char × List Char)
  | [] => .error .ErrTrailingBackslash
  | c :: t =>
    if isDigit c || c == 'x' then .error .unsupported
    else if c = 'a' then .ok (Char.ofNat 7, t)
    else if c = 'f' then .ok (Char.ofNat 12, t)
    else if c = 'n' then .ok ('\n', t)
    else if c = 'r' then .ok ('\r', t)
    else if c = 't' then .ok ('\t', t)
    else if c = 'v' then .ok (Char.ofNat 11, t)
    else if c.toNat < 128 && !isalnum c then .ok (c, t)
    else .error .ErrInvalidEscape

/-- The function `parseClassChar`: one character of a bracket class. -/
def parseClassChar : List Char → Except ErrorCode (Char × List Char)
  | [] => .error .ErrMissingBracket
  | c :: t => if c = '\\' then parseEscape t else .ok (c, t)

/-- One turn of the loop of `parseClass`: whether the closing `]` was read, the
ranges collected so far, and the text left. -/
def parseClassItem (t : List Char) (first : Bool) (cls : List (Char × Char)) :
    Except ErrorCode (Bool × List (Char × Char) × List Char) :=
  if first = false ∧ t.head? = some ']' then .ok (true, cls, t.tail)
  else if ['[', ':'].isPrefixOf t then .error .unsupported
  else if ['\\', 'd'].isPrefixOf t then .ok (false, cls ++ perlDigit, t.drop 2)
  else if ['\\', 's'].isPrefixOf t then .ok (false, cls ++ perlSpace, t.drop 2)
  else if ['\\', 'w'].isPrefixOf t then .ok (false, cls ++ perlWord, t.drop 2)
  else if ['\\', 'D'].isPrefixOf t || ['\\', 'S'].isPrefixOf t || ['\\', 'W'].isPrefixOf t
      || ['\\', 'p'].isPrefixOf t || ['\\', 'P'].isPrefixOf t then .error .unsupported
  else
    match parseClassChar t with
    | .error e => .error e
    | .ok (lo, t1) =>
      if 2 ≤ t1.length ∧ t1.head? = some '-' ∧ t1.tail.head? ≠ some ']' then
        match parseClassChar t1.tail with
        | .error e => .error e
        | .ok (hi, t2) =>
          if hi < lo then .error .ErrInvalidCharRange
          else .ok (false, cls ++ [(lo, hi)], t2)
      else .ok (false, cls ++ [(lo, lo)], t1)

/-- The loop of `parseClass`, after `[` and an optional `^`. -/
def parseClassLoop : Nat → List Char → Bool → List (Char × Char) →
    Except ErrorCode (List (Char × Char) × List Char)
  | 0, _, _, _ => .error .outOfFuel
  | fuel + 1, t, first, cls =>
    match parseClassItem t first cls with
    | .error e => .error e
    | .ok (true, cls1, t1) => .ok (cls1, t1)
    | .ok (false, cls1, t1) => parseClassLoop fuel t1 false cls1

/-- The method `parseClass`, applied to the text after the opening `[`. -/
def parseClass (t : List Char) : Except ErrorCode (Regex × List Char) :=
  let nt : Bool × List Char := match t with
    | '^' :: t1 => (true, t1)
    | _ => (false, t)
  match parseClassLoop (nt.2.length + 1) nt.2 true [] with
  | .error e => .error e
  | .ok (cls, rest) => .ok (.charClass nt.1 cls, rest)

/-- Split a group name from the text after `(?P<`: the name and the text after `>`. -/
def splitName : List Char → Option (GoString × List Char)
  | [] => none
  | c :: t => if c = '>' then some ([], t) else
    match splitName t with
    | none => none
    | some (name, rest) => some (c :: name, rest)

/-- One turn of the main loop of `syntax.Parse`, on the character `c` followed by
`t`: the parser after it, the text left, and whether a repetition operator was read. -/
def parseStep (c : Char) (t : List Char) (lastRepeat : Bool) (p : parser) :
    Except ErrorCode (parser × List Char × Bool) :=
  if c = '(' then
    if ['?', ':'].isPrefixOf t then .ok (p.openGroup none, t.drop 2, false)
    else if ['?', 'P', '<'].isPrefixOf t then
      match splitName (t.drop 3) with
      | none => .error .ErrInvalidNamedCapture
      | some (name, t2) =>
        if !isValidCaptureName name then .error .ErrInvalidNamedCapture
        else .ok ({ p.openGroup (some (p.numCap + 1, name)) with
              numCap := p.numCap + 1 }, t2, false)
    else if ['?'].isPrefixOf t then .error .unsupported
    else .ok ({ p.openGroup (some (p.numCap + 1, [])) with numCap := p.numCap + 1 }, t, false)
  else if c = '|' then
    .ok ({ p with alts := collapseConcat p.cur :: p.alts, cur := [] }, t, false)
  else if c = ')' then
    match p.stack with
    | [] => .error .ErrUnexpectedParen
    | f :: stack =>
      let body := collapseAlternate (collapseConcat p.cur) p.alts
      let re := match f.cap with
        | none => body
        | some (i, name) => .capture i name body
      .ok ({ p with stack := stack, alts := f.alts, cur := re :: f.cur }, t, false)
  else if c = '^' then .ok (p.push .beginText, t, false)
  else if c = '$' then .ok (p.push .endText, t, false)
  else if c = '.' then .ok (p.push .anyCharNotNL, t, false)
  else if c = '[' then
    match parseClass t with
    | .error e => .error e
    | .ok (re, t1) => .ok (p.push re, t1, false)
  else if c = '*' then
    match p.repeatOp .star true t lastRepeat with
    | .error e => .error e
    | .ok (p1, t1) => .ok (p1, t1, true)
  else if c = '+' then
    match p.repeatOp .plus true t lastRepeat with
    | .error e => .error e
    | .ok (p1, t1) => .ok (p1, t1, true)
  else if c = '?' then
    match p.repeatOp .quest false t lastRepeat with
    | .error e => .error e
    | .ok (p1, t1) => .ok (p1, t1, true)
  else if c = '\x7b' then
    match t with
    | d :: _ => if isDigit d then .error .unsupported else .ok (p.push (.literal c), t, false)
    | [] => .ok (p.push (.literal c), t, false)
  else if c = '\\' then
    if ['A'].isPrefixOf t then .ok (p.push .beginText, t.drop 1, false)
    else if ['z'].isPrefixOf t then .ok (p.push .endText, t.drop 1, false)
    else if ['d'].isPrefixOf t then .ok (p.push (.charClass false perlDigit), t.drop 1, false)
    else if ['D'].isPrefixOf t then .ok (p.push (.charClass true perlDigit), t.drop 1, false)
    else if ['s'].isPrefixOf t then .ok (p.push (.charClass false perlSpace), t.drop 1, false)
    else if ['S'].isPrefixOf t then .ok (p.push (.charClass true perlSpace), t.drop 1, false)
    else if ['w'].isPrefixOf t then .ok (p.push (.charClass false perlWord), t.drop 1, false)
    else if ['W'].isPrefixOf t then .ok (p.push (.charClass true perlWord), t.drop 1, false)
    else if ['C'].isPrefixOf t then .error .ErrInvalidEscape
    else if ['b'].isPrefixOf t || ['B'].isPrefixOf t || ['Q'].isPrefixOf t || ['E'].isPrefixOf t
        || ['p'].isPrefixOf t || ['P'].isPrefixOf t then .error .unsupported
    else
      match parseEscape t with
      | .error e => .error e
      | .ok (c1, t1) => .ok (p.push (.literal c1), t1, false)
  else .ok (p.push (.literal c), t, false)

/-- The main loop of `syntax.Parse`, and the collapse of the stack at the end of the text. -/
def parseLoop : Nat → List Char → Bool → parser → Except ErrorCode Regex
  | 0, _, _, _ => .error .outOfFuel
  | _ + 1, [], _, p =>
    if p.stack.isEmpty then .ok (collapseAlternate (collapseConcat p.cur) p.alts)
    else .error .ErrMissingParen
  | fuel + 1, c :: t, lastRepeat, p =>
    match parseStep c t lastRepeat p with
    | .error e => .error e
    | .ok (p1, t1, lr) => parseLoop fuel t1 lr p1

/-- The function `syntax.Parse` with the Perl flags. -/
def Parse (s : GoString) : Except ErrorCode Regex :=
  parseLoop (s.length + 1) s false ⟨[], [], [], 0⟩


/-! ## Model of Go's `regexp`: matching

Matching is leftmost-first: the match starts at the leftmost possible position
and, among the matches starting there, is the one a backtracking search finds
first. `run re s` lists the states reachable from `s` by matching `re`, in that
order of preference. In the syntax trees the parser produces the operand of `*`
and `+` cannot match the empty string, so every iteration of a repetition
consumes input; `iterate` and `runPlus` stop at an iteration that does not.
-/

/-- State of a match in progress: the offset reached, the input left, and the
capture registers (group index to start and end offsets). -/
structure MState where
  pos : Nat
  rest : List Char
  cap : List (Option (Nat × Nat))
  deriving Repr, DecidableEq

def inClass (ranges : List (Char × Char)) (c : Char) : Bool :=
  ranges.any fun r => decide (r.1 ≤ c) && decide (c ≤ r.2)

/-- Consume one character satisfying `ok`. -/
def stepChar (ok : Char → Bool) (s : MState) : List MState :=
  match s.rest with
  | [] => []
  | x :: xs => if ok x then [⟨s.pos + 1, xs, s.cap⟩] else []

/-- Further iterations of a repetition, each of which has to consume input. -/
def iterate (step : MState → List MState) (greedy : Bool) : Nat → MState → List MState
  | 0, _ => []
  | n + 1, s => (step s).flatMap fun s1 =>
      if s1.rest.length < s.rest.length then
        if greedy then iterate step greedy n s1 ++ [s1] else s1 :: iterate step greedy n s1
      else []

/-- One or more iterations of `step`. -/
def runPlus (step : MState → List MState) (greedy : Bool) (s : MState) : List MState :=
  (step s).flatMap fun s1 =>
    if s1.rest.length < s.rest.length then
      if greedy then iterate step greedy s1.rest.length s1 ++ [s1]
      else s1 :: iterate step greedy s1.rest.length s1
    else [s1]

/-- The states reached by matching `re` from `s`, most preferred first. -/
def run : Regex → MState → List MState
  | .emptyMatch, s => [s]
  | .literal c, s => stepChar (fun x => x == c) s
  | .charClass neg ranges, s => stepChar (fun x => inClass ranges x != neg) s
  | .anyCharNotNL, s => stepChar (fun x => x != '\n') s
  | .beginText, s => if s.pos = 0 then [s] else []
  | .endText, s => if s.rest.isEmpty then [s] else []
  | .capture idx _ sub, s =>
    (run sub s).map fun s1 => { s1 with cap := s1.cap.set idx (some (s.pos, s1.pos)) }
  | .star greedy sub, s =>
    if greedy then runPlus (run sub) greedy s ++ [s] else s :: runPlus (run sub) greedy s
  | .plus greedy sub, s => runPlus (run sub) greedy s
  | .quest greedy sub, s => if greedy then run sub s ++ [s] else s :: run sub s
  | .concat a b, s => (run a s).flatMap (run b)
  | .alternate a b, s => run a s ++ run b s

/-- The method `Regex.MaxCap`: the largest capture index in the expression. -/
def Regex.MaxCap : Regex → Nat
  | .capture idx _ sub => max idx sub.MaxCap
  | .star _ sub => sub.MaxCap
  | .plus _ sub => sub.MaxCap
  | .quest _ sub => sub.MaxCap
  | .concat a b => max a.MaxCap b.MaxCap
  | .alternate a b => max a.MaxCap b.MaxCap
  | _ => 0

/-- The method `Regex.capNames`: record the name of every capture group at its index. -/
def Regex.capNames : Regex → List GoString → List GoString
  | .capture idx name sub, names => sub.capNames (names.set idx name)
  | .star _ sub, names => sub.capNames names
  | .plus _ sub, names => sub.capNames names
  | .quest _ sub, names => sub.capNames names
  | .concat a b, names => b.capNames (a.capNames names)
  | .alternate a b, names => b.capNames (a.capNames names)
  | _, names => names

/-- A compiled regular expression `*regexp.Regexp`: its source text and syntax tree. -/
structure Regexp where
  expr : GoString
  re : Regex
  deriving Repr, DecidableEq

deriving instance DecidableEq for Except

/-- The function `regexp.Compile`. -/
def Compile (expr : GoString) : Except ErrorCode Regexp :=
  match Parse expr with
  | .error e => .error e
  | .ok re => .ok ⟨expr, re⟩

def Regexp.numSubexp (re : Regexp) : Nat := re.re.MaxCap

/-- The method `Regexp.SubexpNames`: entry 0 and the unnamed groups are empty. -/
def Regexp.SubexpNames (re : Regexp) : List GoString :=
  re.re.capNames (List.replicate (re.numSubexp + 1) [])

/-- Unanchored search: the first match at the leftmost start offset that has one. -/
def search (re : Regex) (ncap : Nat) : Nat → List Char → Option MState
  | pos, [] =>
    match run re ⟨pos, [], List.replicate (ncap + 1) none⟩ with
    | [] => none
    | s :: _ => some { s with cap := s.cap.set 0 (some (pos, s.pos)) }
  | pos, c :: cs =>
    match run re ⟨pos, c :: cs, List.replicate (ncap + 1) none⟩ with
    | [] => search re ncap (pos + 1) cs
    | s :: _ => some { s with cap := s.cap.set 0 (some (pos, s.pos)) }

/-- The method `Regexp.doExecute`: the capture registers of the match, if any. -/
def Regexp.doExecute (re : Regexp) (s : GoString) : Option (List (Option (Nat × Nat))) :=
  (search re.re re.numSubexp 0 s).map fun m => m.cap

/-- The method `Regexp.MatchString`: whether `s` contains any match of `re`. -/
def Regexp.MatchString (re : Regexp) (s : GoString) : Bool :=
  (re.doExecute s).isSome

/-- The method `Regexp.FindStringSubmatch`: the text of the leftmost match and
of its groups, `none` (a nil slice) when there is no match. -/
def Regexp.FindStringSubmatch (re : Regexp) (s : GoString) : Option (List GoString) :=
  match re.doExecute s with
  | none => none
  | some a => some ((List.range (1 + re.numSubexp)).map fun i =>
      match a[i]? with
      | some (some (b, e)) => (s.drop b).take (e - b)
      | _ => [])

/-! ## Model of Go's `strings` -/

/-- The function `strings.Contains`. -/
def Contains : GoString → GoString → Bool
  | [], substr => substr.isEmpty
  | c :: t, substr => substr.isPrefixOf (c :: t) || Contains t substr

/-- Scan for `strings.ReplaceAll` with a non-empty `old`: at a match emit `new`
and skip the rest of the match (`skip` characters still to be dropped). -/
def replaceFrom (old new : GoString) : Nat → List Char → List Char
  | _, [] => []
  | skip + 1, _ :: t => replaceFrom old new skip t
  | 0, c :: t =>
    if old.isPrefixOf (c :: t) then new ++ replaceFrom old new (old.length - 1) t
    else c :: replaceFrom old new 0 t

/-- The function `strings.ReplaceAll`: non-overlapping occurrences, left to right;
an empty `old` matches before every character and at the end. -/
def ReplaceAll (s old new : GoString) : GoString :=
  if old.isEmpty then new ++ s.flatMap fun c => c :: new
  else replaceFrom old new 0 s

/-! ## Model of Go's `net/http`: cookies

A `Set-Cookie` header value is given by the attributes it carries, as a
`Cookie`: what `Response.Cookies` reads from the value, and what `Cookie.String`
writes into it. The source texts `Raw` and `RawExpires` of `http.Cookie`, the
quotes that surround a value in the text, and the attribute `Partitioned` are
left out. `Expires` is an instant in whole seconds since 0001-01-01 00:00:00
UTC, so that 0 is the zero `time.Time`; `MaxAge` is as in `http.Cookie`: 0 for
no attribute, negative for `Max-Age=0`.
-/

/-- The fields of `http.Cookie`. -/
structure Cookie where
  Name : GoString
  Value : GoString
  Path : GoString
  Domain : GoString
  Expires : Int
  MaxAge : Int
  Secure : Bool
  HttpOnly : Bool
  SameSite : Nat
  Unparsed : List GoString
  deriving Repr, DecidableEq

def SameSiteDefaultMode : Nat := 1

def SameSiteLaxMode : Nat := 2

def SameSiteStrictMode : Nat := 3

def SameSiteNoneMode : Nat := 4

/-- The token characters of HTTP (`httpguts.IsTokenRune`). -/
def isTokenRune (c : Char) : Bool :=
  isalnum c ||
    ['!', '#', '$', '%', '&', Char.ofNat 39, '*', '+', '-', '.', '^', '_', Char.ofNat 96,
      '|', '~'].contains c

/-- The function `isCookieNameValid`: a non-empty token. -/
def isCookieNameValid (raw : GoString) : Bool :=
  !raw.isEmpty && raw.all isTokenRune

def validCookieValueByte (b : Char) : Bool :=
  decide (0x20 ≤ b.toNat) && decide (b.toNat < 0x7f) && b != Char.ofNat 34 && b != ';' &&
    b != '\\'

def validCookiePathByte (b : Char) : Bool :=
  decide (0x20 ≤ b.toNat) && decide (b.toNat < 0x7f) && b != ';'

/-- The function `sanitizeCookieValue`, without the quotes it puts around a value
that holds a blank or a comma: the invalid bytes are dropped. -/
def sanitizeCookieValue (v : GoString) : GoString := v.filter validCookieValueByte

/-- The function `sanitizeCookiePath`: the invalid bytes are dropped. -/
def sanitizeCookiePath (v : GoString) : GoString := v.filter validCookiePathByte

/-- The loop of `isCookieDomainName`: `last` is the byte before, `ok` tells whether
a letter was seen, `partlen` is the length of the current label. -/
def isCookieDomainNameLoop : List Char → Char → Bool → Nat → Bool
  | [], last, ok, partlen => !(last == '-' || decide (partlen > 63)) && ok
  | c :: s, last, ok, partlen =>
    if isLower c || isUpper c then isCookieDomainNameLoop s c true (partlen + 1)
    else if isDigit c then isCookieDomainNameLoop s c ok (partlen + 1)
    else if c = '-' then
      if last = '.' then false else isCookieDomainNameLoop s c ok (partlen + 1)
    else if c = '.' then
      if last = '.' || last = '-' then false
      else if partlen > 63 || partlen = 0 then false
      else isCookieDomainNameLoop s c ok 0
    else false

/-- The function `isCookieDomainName`. -/
def isCookieDomainName (s : GoString) : Bool :=
  if s.length = 0 then false
  else if s.length > 255 then false
  else isCookieDomainNameLoop (match s with
    | '.' :: t => t
    | _ => s) '.' false 0

/-- The loop of the IPv4 parser behind `net.ParseIP`: `val` and `digLen` describe
the current field, `pos` counts the fields read, `start` tells that the byte
before is a dot or there is none. -/
def parseIPv4Loop : List Char → Nat → Nat → Nat → Bool → Bool
  | [], _, _, pos, _ => decide (pos = 3)
  | c :: s, val, digLen, pos, start =>
    if isDigit c then
      if digLen = 1 ∧ val = 0 then false
      else if val * 10 + (c.toNat - 48) > 255 then false
      else parseIPv4Loop s (val * 10 + (c.toNat - 48)) (digLen + 1) pos false
    else if c = '.' then
      if start || s.isEmpty then false
      else if pos = 3 then false
      else parseIPv4Loop s 0 0 (pos + 1) true
    else false

/-- The function `validCookieDomain`: a domain name, or an IP address without a
colon, that is, a dotted IPv4 address. -/
def validCookieDomain (v : GoString) : Bool :=
  isCookieDomainName v || parseIPv4Loop v 0 0 0 true

/-- The function `validCookieExpires`: the year is 1601 or later. -/
def validCookieExpires (t : Int) : Bool := decide (50491123200 ≤ t)

/-- The method `Cookie.String`, by the attributes of the header value it writes;
`none` stands for the empty string, which `http.SetCookie` does not add. -/
def Cookie.String (c : Cookie) : Option Cookie :=
  if !isCookieNameValid c.Name then none
  else some
    { Name := c.Name
      Value := sanitizeCookieValue c.Value
      Path := sanitizeCookiePath c.Path
      Domain :=
        if validCookieDomain c.Domain then
          match c.Domain with
          | '.' :: d => d
          | d => d
        else []
      Expires := if validCookieExpires c.Expires then c.Expires else 0
      MaxAge := if c.MaxAge > 0 then c.MaxAge else if c.MaxAge < 0 then -1 else 0
      Secure := c.Secure
      HttpOnly := c.HttpOnly
      SameSite :=
        if c.SameSite = SameSiteLaxMode ∨ c.SameSite = SameSiteStrictMode ∨
            c.SameSite = SameSiteNoneMode then c.SameSite
        else 0
      Unparsed := [] }

/-- What `readSetCookies` ensures of a cookie it returns: the name is a token, and
the value and the path hold valid cookie-value bytes only. -/
def parsedCookie (c : Cookie) : Bool :=
  isCookieNameValid c.Name && c.Value.all validCookieValueByte &&
    c.Path.all validCookieValueByte

/-! ## The plugin: `cookie_path_replacement.go` -/

structure ReplacementConfig where
  Name : GoString
  Original : GoString
  Replacement : GoString
  deriving Repr, DecidableEq

structure Config where
  Replacements : List ReplacementConfig
  deriving Repr, DecidableEq

/-- A compiled rule; `name = none` is the nil `*regexp.Regexp`. -/
structure compiledReplacement where
  name : Option Regexp
  original : Regexp
  replacement : GoString
  deriving Repr, DecidableEq

/-- The method `ReplacementConfig.compile`. -/
def ReplacementConfig.compile (rc : ReplacementConfig) : Except ErrorCode compiledReplacement :=
  if rc.Name ≠ [] then
    match Compile ('^' :: rc.Name ++ ['$']) with
    | .error err => .error err
    | .ok name =>
      match Compile ('^' :: rc.Original ++ ['$']) with
      | .error err => .error err
      | .ok original => .ok ⟨some name, original, rc.Replacement⟩
  else
    match Compile ('^' :: rc.Original ++ ['$']) with
    | .error err => .error err
    | .ok original => .ok ⟨none, original, rc.Replacement⟩

/-- The function `CreateConfig`. -/
def CreateConfig : Config := ⟨[]⟩

/-- The handler built by `New` (the `next` handler is left out). -/
structure rewriteBody where
  name : GoString
  config : Config
  compiledReplacements : List compiledReplacement
  deriving Repr, DecidableEq

/-- The loop of `New` over `config.Replacements`. -/
def compileAll : List ReplacementConfig → Except ErrorCode (List compiledReplacement)
  | [] => .ok []
  | replacement :: rest =>
    match replacement.compile with
    | .error err => .error err
    | .ok cr =>
      match compileAll rest with
      | .error err => .error err
      | .ok crs => .ok (cr :: crs)

/-- The constructor `New`: an error stands for the result `(nil, err)`. -/
def New (config : Config) (name : GoString) : Except ErrorCode rewriteBody :=
  match compileAll config.Replacements with
  | .error err => .error err
  | .ok crs => .ok ⟨name, config, crs⟩

/-- The wrapped `http.ResponseWriter`, reduced to what `WriteHeader` touches:
the `Set-Cookie` values of its header, each given by the attributes it carries,
and the status code it was sent. -/
structure ResponseWriter where
  setCookie : List Cookie
  statusCode : Option Int
  deriving Repr, DecidableEq

structure responseWriter where
  writer : ResponseWriter
  config : List compiledReplacement
  deriving Repr, DecidableEq

/-- The method `rewriteBody.ServeHTTP`: the wrapped writer handed to the next
handler, which stages its cookies in the header and then calls `WriteHeader`. -/
def rewriteBody.ServeHTTP (r : rewriteBody) (rw : ResponseWriter) : responseWriter :=
  ⟨rw, r.compiledReplacements⟩

/-- The method `responseWriter.Header`: the header of the wrapped writer. -/
def responseWriter.Header (r : responseWriter) : List Cookie := r.writer.setCookie

/-- The function `http.SetCookie`: add the value `cookie.String()` to the
`Set-Cookie` header, unless it is empty. -/
def SetCookie (w : ResponseWriter) (cookie : Cookie) : ResponseWriter :=
  match cookie.String with
  | none => w
  | some v => { w with setCookie := w.setCookie ++ [v] }

/-- The loop over `SubexpNames()` in `WriteHeader`, from index `i` on. The result
`none` stands for the run-time panic of `matchGroups[i]` out of range. -/
def substituteGroups (matchGroups : List GoString) :
    Nat → List GoString → GoString → Option GoString
  | _, [], replacementPath => some replacementPath
  | i, name :: names, replacementPath =>
    if i ≠ 0 ∧ name ≠ [] then
      match matchGroups[i]? with
      | none => none
      | some g =>
        substituteGroups matchGroups (i + 1) names
          (ReplaceAll replacementPath ('\x7b' :: '\x7b' :: name ++ ['\x7d', '\x7d']) g)
    else substituteGroups matchGroups (i + 1) names replacementPath

/-- The body of the loop over `r.config` in `WriteHeader`, for one rule. -/
def applyReplacement (replacement : compiledReplacement) (cookie : Cookie) : Option Cookie :=
  if (match replacement.name with
      | none => false
      | some name => !name.MatchString cookie.Name) then some cookie
  else if replacement.original.MatchString cookie.Path then
    if Contains replacement.replacement ['\x7b', '\x7b'] then
      match substituteGroups ((replacement.original.FindStringSubmatch cookie.Path).getD [])
          0 replacement.original.SubexpNames replacement.replacement with
      | none => none
      | some replacementPath => some { cookie with Path := replacementPath }
    else some { cookie with Path := replacement.replacement }
  else some cookie

/-- The loop over `r.config` in `WriteHeader`, for one cookie. -/
def applyReplacements : List compiledReplacement → Cookie → Option Cookie
  | [], cookie => some cookie
  | replacement :: rest, cookie =>
    match applyReplacement replacement cookie with
    | none => none
    | some c => applyReplacements rest c

/-- The loop over `cookies` in `WriteHeader`. -/
def rewriteCookies (config : List compiledReplacement) :
    List Cookie → ResponseWriter → Option ResponseWriter
  | [], w => some w
  | cookie :: rest, w =>
    match applyReplacements config cookie with
    | none => none
    | some c => rewriteCookies config rest (SetCookie w c)

/-- The method `responseWriter.WriteHeader`; `none` stands for a run-time panic. -/
def responseWriter.WriteHeader (r : responseWriter) (statusCode : Int) : Option ResponseWriter :=
  match rewriteCookies r.config r.writer.setCookie { r.writer with setCookie := [] } with
  | none => none
  | some w => some { w with statusCode := some statusCode }

/-! ## Specification-side definitions

The pipeline reading of the rule list, stated on paths: it is compared with the
loops of `WriteHeader` below.
-/

/-- Whether a rule is applied to a cookie of this name whose current path is `path`. -/
def ruleApplies (r : compiledReplacement) (name path : GoString) : Bool :=
  (match r.name with
   | none => true
   | some n => n.MatchString name) && r.original.MatchString path

/-- The path a rule assigns to a cookie whose current path is `path`. -/
def ruleOutput (r : compiledReplacement) (path : GoString) : GoString :=
  if Contains r.replacement ['\x7b', '\x7b'] then
    (substituteGroups ((r.original.FindStringSubmatch path).getD []) 0
      r.original.SubexpNames r.replacement).getD []
  else r.replacement

/-- One stage of the pipeline: the rule rewrites the current path or leaves it. -/
def pipelineStep (name : GoString) (path : GoString) (r : compiledReplacement) : GoString :=
  if ruleApplies r name path then ruleOutput r path else path

/-- The left fold of the rules over a path, in declaration order. -/
def pipeline (rules : List compiledReplacement) (name path : GoString) : GoString :=
  rules.foldl (pipelineStep name) path

/-- The outputs of the rules that matched during the traversal, in order. -/
def matchTrace : List compiledReplacement → GoString → GoString → List GoString
  | [], _, _ => []
  | r :: rs, name, path =>
    if ruleApplies r name path then ruleOutput r path :: matchTrace rs name (ruleOutput r path)
    else matchTrace rs name path

/-- The cookies `WriteHeader` hands to `http.SetCookie` for a rule list. -/
def rewritten (config : List compiledReplacement) (cookies : List Cookie) : List Cookie :=
  cookies.map fun c => { c with Path := pipeline config c.Name c.Path }

/-- A cookie with the given name and path, as the tests of the plugin set them. -/
def exampleCookie (name path : GoString) : Cookie :=
  ⟨name, "v1".toList, path, [], 0, 0, false, false, 0, []⟩

/-- The attributes other than `Path` of the value written for the cookie `c`, as
`Cookie.String` derives them from `c`. -/
def writtenFrom (c v : Cookie) : Prop :=
  v.Name = c.Name ∧ v.Value = sanitizeCookieValue c.Value ∧
  v.Domain = (if validCookieDomain c.Domain then
      (match c.Domain with
        | '.' :: d => d
        | d => d)
    else []) ∧
  v.Expires = (if validCookieExpires c.Expires then c.Expires else 0) ∧
  v.MaxAge = (if c.MaxAge > 0 then c.MaxAge else if c.MaxAge < 0 then -1 else 0) ∧
  v.Secure = c.Secure ∧ v.HttpOnly = c.HttpOnly ∧
  v.SameSite = (if c.SameSite = SameSiteLaxMode ∨ c.SameSite = SameSiteStrictMode ∨
      c.SameSite = SameSiteNoneMode then c.SameSite else 0) ∧
  v.Unparsed = []

/-- The regular-expression metacharacters (the characters `regexp.QuoteMeta` escapes). -/
def special (c : Char) : Bool :=
  ['\\', '.', '+', '*', '?', '(', ')', '|', '[', ']', '\x7b', '\x7d', '^', '$'].contains c

/-- The concatenation of the literals of `s`, followed by `last`. -/
def literalChain (s : GoString) (last : Regex) : Regex :=
  s.foldr (fun c acc => .concat (.literal c) acc) last

/-- The syntax tree of the anchored pattern `^/(?P<name>[^/]+)$`. -/
def segmentPattern : Regex :=
  .concat .beginText (.concat (.literal '/')
    (.concat (.capture 1 "name".toList (.plus true (.charClass true [('/', '/')]))) .endText))

/-- A path of the form `/s` with `s` non-empty and free of `/`. -/
def isSegmentPath : GoString → Bool
  | '/' :: s => !s.isEmpty && s.all fun x => x != '/'
  | _ => false

/-- Whether `re`, read on its own, matches the whole of `s`: some match of `re`
starting at offset 0 ends at the end of `s`. -/
def matchesWhole (re : Regex) (s : GoString) : Bool :=
  (run re ⟨0, s, List.replicate (re.MaxCap + 1) none⟩).any fun st => st.rest.isEmpty

/-- The placeholder `{{name}}`. -/
def placeholder (name : GoString) : GoString :=
  '\x7b' :: '\x7b' :: name ++ ['\x7d', '\x7d']

/-- Specification side: the named group whose placeholder starts the text `t`, as
the text it captured and the length of the placeholder. Group 0 and unnamed groups
have no placeholder. -/
def placeholderAt (names groups : List GoString) (t : List Char) : Option (GoString × Nat) :=
  ((List.range names.length).filterMap fun i =>
    let name := names.getD i []
    if i ≠ 0 ∧ name ≠ [] ∧ (placeholder name).isPrefixOf t then
      some (groups.getD i [], (placeholder name).length)
    else none).head?

/-- Specification side: substitution of all placeholders of the template at once,
in one pass from left to right; inserted text is not scanned again. -/
def substituteAtOnce (names groups : List GoString) : Nat → List Char → List Char
  | _, [] => []
  | skip + 1, _ :: t => substituteAtOnce names groups skip t
  | 0, c :: t =>
    match placeholderAt names groups (c :: t) with
    | some (g, n) => g ++ substituteAtOnce names groups (n - 1) t
    | none => c :: substituteAtOnce names groups 0 t

/-! ## Lemmas on the model and on the loops of `WriteHeader` -/

theorem capNames_length (re : Regex) (names : List GoString) :
    (re.capNames names).length = names.length := by
  induction re generalizing names with
  | capture idx name sub ih => simp [Regex.capNames, ih]
  | star g sub ih => simp [Regex.capNames, ih]
  | plus g sub ih => simp [Regex.capNames, ih]
  | quest g sub ih => simp [Regex.capNames, ih]
  | concat a b iha ihb => simp [Regex.capNames, iha, ihb]
  | alternate a b iha ihb => simp [Regex.capNames, iha, ihb]
  | _ => simp [Regex.capNames]

theorem subexpNames_length (re : Regexp) : re.SubexpNames.length = re.numSubexp + 1 := by
  simp [Regexp.SubexpNames, capNames_length]

theorem findStringSubmatch_of_match (re : Regexp) (s : GoString)
    (h : re.MatchString s = true) :
    ∃ matchGroups, re.FindStringSubmatch s = some matchGroups ∧
      matchGroups.length = re.numSubexp + 1 := by
  unfold Regexp.MatchString at h
  unfold Regexp.FindStringSubmatch
  cases hd : re.doExecute s with
  | none => simp [hd] at h
  | some a => exact ⟨_, rfl, by simp [Nat.add_comm]⟩

theorem substituteGroups_isSome (matchGroups : List GoString) (names : List GoString) :
    ∀ (i : Nat) (path : GoString), i + names.length ≤ matchGroups.length →
      ∃ p, substituteGroups matchGroups i names path = some p := by
  induction names with
  | nil => intro i path _; exact ⟨path, rfl⟩
  | cons name names ih =>
    intro i path hlen
    simp only [List.length_cons] at hlen
    have hi : i < matchGroups.length := by omega
    unfold substituteGroups
    split
    · rw [List.getElem?_eq_getElem hi]
      exact ih (i + 1) _ (by omega)
    · exact ih (i + 1) _ (by omega)

theorem substituteGroups_of_match (r : compiledReplacement) (path : GoString)
    (h : r.original.MatchString path = true) :
    ∃ p, substituteGroups ((r.original.FindStringSubmatch path).getD []) 0
      r.original.SubexpNames r.replacement = some p := by
  obtain ⟨mg, hmg, hlen⟩ := findStringSubmatch_of_match r.original path h
  rw [hmg]
  apply substituteGroups_isSome
  simp [subexpNames_length, hlen]

theorem applyReplacement_eq (r : compiledReplacement) (c : Cookie) :
    applyReplacement r c = some { c with Path := pipelineStep c.Name c.Path r } := by
  unfold applyReplacement pipelineStep ruleApplies ruleOutput
  cases hm : r.original.MatchString c.Path with
  | false => cases r.name <;> simp
  | true =>
    have key : ∀ b : Bool, (if b = true then some c else
        if Contains r.replacement ['\x7b', '\x7b'] = true then
          match substituteGroups ((r.original.FindStringSubmatch c.Path).getD []) 0
              r.original.SubexpNames r.replacement with
          | none => none
          | some replacementPath => some { c with Path := replacementPath }
        else some { c with Path := r.replacement }) =
        some { c with Path := if (!b) = true then
          (if Contains r.replacement ['\x7b', '\x7b'] = true then
            (substituteGroups ((r.original.FindStringSubmatch c.Path).getD []) 0
              r.original.SubexpNames r.replacement).getD []
          else r.replacement) else c.Path } := by
      intro b
      cases b
      · by_cases hc : Contains r.replacement ['\x7b', '\x7b'] = true
        · obtain ⟨p, hp⟩ := substituteGroups_of_match r c.Path hm
          simp [hc, hp]
        · simp [hc]
      · simp
    cases hn : r.name with
    | none => simpa using key false
    | some n => simpa using key (!n.MatchString c.Name)

theorem applyReplacements_eq (rules : List compiledReplacement) (c : Cookie) :
    applyReplacements rules c = some { c with Path := pipeline rules c.Name c.Path } := by
  induction rules generalizing c with
  | nil => simp [applyReplacements, pipeline]
  | cons r rs ih =>
    simp only [applyReplacements, applyReplacement_eq, ih, pipeline, List.foldl_cons]

theorem rewriteCookies_eq (config : List compiledReplacement) (cookies : List Cookie)
    (w : ResponseWriter) :
    rewriteCookies config cookies w =
      some { w with
        setCookie := w.setCookie ++ (rewritten config cookies).filterMap Cookie.String } := by
  induction cookies generalizing w with
  | nil => simp [rewriteCookies, rewritten]
  | cons c cs ih =>
    simp only [rewriteCookies, applyReplacements_eq, ih, SetCookie, rewritten, List.map_cons,
      List.filterMap_cons]
    cases Cookie.String { c with Path := pipeline config c.Name c.Path } with
    | none => rfl
    | some v => simp

theorem writeHeader_eq (r : responseWriter) (statusCode : Int) :
    r.WriteHeader statusCode =
      some ⟨(rewritten r.config r.writer.setCookie).filterMap Cookie.String,
        some statusCode⟩ := by
  simp [responseWriter.WriteHeader, rewriteCookies_eq]

theorem pipeline_eq_last_of_trace (rules : List compiledReplacement) (name : GoString) :
    ∀ path, pipeline rules name path = ((matchTrace rules name path).getLast?).getD path := by
  induction rules with
  | nil => intro path; simp [pipeline, matchTrace]
  | cons r rs ih =>
    intro path
    have hstep : pipeline (r :: rs) name path = pipeline rs name (pipelineStep name path r) := by
      simp [pipeline]
    rw [hstep, ih]
    by_cases ha : ruleApplies r name path = true
    · simp [pipelineStep, matchTrace, ha, List.getLast?_cons]
    · simp [pipelineStep, matchTrace, ha]

theorem pipeline_of_no_match (rules : List compiledReplacement) (name path : GoString)
    (h : ∀ rule ∈ rules, rule.original.MatchString path = false) :
    pipeline rules name path = path := by
  induction rules with
  | nil => simp [pipeline]
  | cons r rs ih =>
    have hr : ruleApplies r name path = false := by
      simp [ruleApplies, h r (List.mem_cons_self r rs)]
    have hstep : pipeline (r :: rs) name path = pipeline rs name (pipelineStep name path r) := by
      simp [pipeline]
    rw [hstep]
    simp only [pipelineStep, hr]
    exact ih fun rule hmem => h rule (List.mem_cons_of_mem r hmem)

theorem string_of_valid (c : Cookie) (h : isCookieNameValid c.Name = true) :
    ∃ v, c.String = some v ∧ v.Path = sanitizeCookiePath c.Path ∧ writtenFrom c v := by
  unfold Cookie.String
  rw [h]
  exact ⟨_, rfl, rfl, rfl, rfl, rfl, rfl, rfl, rfl, rfl, rfl, rfl⟩

theorem string_path (c v : Cookie) (h : c.String = some v) :
    v.Path = sanitizeCookiePath c.Path ∧ writtenFrom c v := by
  unfold Cookie.String at h
  split at h
  · simp at h
  · simp only [Option.some.injEq] at h
    subst h
    exact ⟨rfl, rfl, rfl, rfl, rfl, rfl, rfl, rfl, rfl, rfl⟩

theorem sanitizeCookiePath_of_valid (p : GoString) (h : p.all validCookiePathByte = true) :
    sanitizeCookiePath p = p := by
  unfold sanitizeCookiePath
  rw [List.filter_eq_self]
  simpa using h

theorem sanitizeCookieValue_of_valid (v : GoString) (h : v.all validCookieValueByte = true) :
    sanitizeCookieValue v = v := by
  unfold sanitizeCookieValue
  rw [List.filter_eq_self]
  simpa using h

theorem validCookiePathByte_of_value (b : Char) (h : validCookieValueByte b = true) :
    validCookiePathByte b = true := by
  simp only [validCookieValueByte, validCookiePathByte, Bool.and_eq_true] at h ⊢
  exact ⟨⟨h.1.1.1.1, h.1.1.1.2⟩, h.1.2⟩

theorem filterMap_string_of_valid (cookies : List Cookie)
    (h : ∀ c ∈ cookies, isCookieNameValid c.Name = true) :
    List.Forall₂ (fun c v => c.String = some v) cookies (cookies.filterMap Cookie.String) := by
  induction cookies with
  | nil => exact List.Forall₂.nil
  | cons c cs ih =>
    obtain ⟨v, hv, _⟩ := string_of_valid c (h c (List.mem_cons_self c cs))
    rw [List.filterMap_cons, hv]
    exact List.Forall₂.cons hv (ih fun d hd => h d (List.mem_cons_of_mem c hd))

theorem parseLoop_literal (c : Char) (hc : special c = false) (fuel : Nat) (t : List Char)
    (lr : Bool) (p : parser) :
    parseLoop (fuel + 1) (c :: t) lr p = parseLoop fuel t false (p.push (.literal c)) := by
  simp only [special, List.contains, List.elem_eq_mem, List.mem_cons, List.mem_singleton,
    decide_eq_false_iff_not, not_or, List.not_mem_nil, or_false] at hc
  obtain ⟨h1, h2, h3, h4, h5, h6, h7, h8, h9, h10, h11, h12, h13, h14⟩ := hc
  have hstep : parseStep c t lr p = .ok (p.push (.literal c), t, false) := by
    unfold parseStep
    rw [if_neg h6, if_neg h8, if_neg h7, if_neg h13, if_neg h14, if_neg h2, if_neg h9,
      if_neg h4, if_neg h3, if_neg h5, if_neg h11, if_neg h1]
  rw [parseLoop, hstep]

theorem parseLoop_literals (s : GoString) (hs : ∀ c ∈ s, special c = false) :
    ∀ (fuel : Nat) (t : List Char) (lr : Bool) (p : parser),
      parseLoop (fuel + 1 + s.length) (s ++ '$' :: t) lr p =
        parseLoop fuel t false
          { p with cur := .endText :: ((s.map Regex.literal).reverse ++ p.cur) } := by
  induction s with
  | nil =>
    intro fuel t lr p
    have hstep : parseStep '$' t lr p = .ok (p.push .endText, t, false) := by
      unfold parseStep; simp
    simp only [List.length_nil, Nat.add_zero, List.nil_append, List.map_nil, List.reverse_nil]
    rw [parseLoop, hstep]
    rfl
  | cons c s ih =>
    intro fuel t lr p
    have hc := hs c (List.mem_cons_self c s)
    have hs1 : ∀ d ∈ s, special d = false := fun d hd => hs d (List.mem_cons_of_mem c hd)
    have e : fuel + 1 + (c :: s).length = (fuel + 1 + s.length) + 1 := by simp; omega
    rw [e, List.cons_append, parseLoop_literal c hc, ih hs1]
    simp [parser.push]

theorem foldr_map_literal (s : GoString) (last : Regex) :
    List.foldr (fun x y => Regex.concat x y) last (List.map Regex.literal s) =
      literalChain s last := by
  simp [literalChain, List.foldr_map]

theorem parse_anchored_literal (s : GoString) (hs : ∀ c ∈ s, special c = false) :
    Parse ('^' :: s ++ ['$']) = .ok (.concat .beginText (literalChain s .endText)) := by
  have e : ('^' :: s ++ ['$']).length + 1 = (1 + 1 + s.length) + 1 := by
    simp only [List.length_cons, List.length_append, List.length_nil]; omega
  unfold Parse
  rw [e]
  have h1 : ∀ n t p, parseLoop (n + 1) ('^' :: t) false p =
      parseLoop n t false (p.push .beginText) := by
    intro n t p
    have hstep : parseStep '^' t false p = .ok (p.push .beginText, t, false) := by
      unfold parseStep; simp
    rw [parseLoop, hstep]
  rw [List.cons_append, h1, parseLoop_literals s hs]
  simp [parseLoop, parser.push, collapseConcat, collapseAlternate, foldr_map_literal]

theorem parse_anchored_twice_literal (s : GoString) (hs : ∀ c ∈ s, special c = false) :
    Parse ('^' :: ('^' :: s ++ ['$']) ++ ['$']) =
      .ok (.concat .beginText (.concat .beginText
        (literalChain s (.concat .endText .endText)))) := by
  have e : ('^' :: ('^' :: s ++ ['$']) ++ ['$']).length + 1 = ((2 + 1 + s.length) + 1) + 1 := by
    simp only [List.length_cons, List.length_append, List.length_nil]; omega
  unfold Parse
  rw [e]
  have h1 : ∀ n t p, parseLoop (n + 1) ('^' :: t) false p =
      parseLoop n t false (p.push .beginText) := by
    intro n t p
    have hstep : parseStep '^' t false p = .ok (p.push .beginText, t, false) := by
      unfold parseStep; simp
    rw [parseLoop, hstep]
  have h2 : ('^' :: ('^' :: s ++ ['$']) ++ ['$']) = '^' :: '^' :: (s ++ '$' :: ['$']) := by simp
  rw [h2, h1, h1, parseLoop_literals s hs]
  have hstep : ∀ p, parseStep '$' [] false p = .ok (p.push .endText, [], false) := by
    intro p; unfold parseStep; simp
  rw [parseLoop, hstep]
  simp [parseLoop, parser.push, collapseConcat, collapseAlternate, foldr_map_literal]

theorem run_literalChain (s : GoString) (last : Regex) :
    ∀ (pos : Nat) (rest : List Char) (cap : List (Option (Nat × Nat))),
      run (literalChain s last) ⟨pos, rest, cap⟩ =
        if s.isPrefixOf rest then run last ⟨pos + s.length, rest.drop s.length, cap⟩ else [] := by
  induction s with
  | nil => intro pos rest cap; simp [literalChain]
  | cons c s ih =>
    intro pos rest cap
    have hu : literalChain (c :: s) last = .concat (.literal c) (literalChain s last) := rfl
    rw [hu]
    cases rest with
    | nil => simp [run, stepChar]
    | cons x xs =>
      by_cases hx : x = c
      · subst hx
        simp [run, stepChar, ih, Nat.add_assoc, Nat.add_comm 1]
      · have hx1 : ¬ c = x := fun h => hx h.symm
        simp [run, stepChar, hx, hx1]

theorem isPrefixOf_and_drop (s path : GoString) :
    (s.isPrefixOf path = true ∧ (path.drop s.length).isEmpty = true) ↔ path = s := by
  constructor
  · rintro ⟨h1, h2⟩
    rw [List.isPrefixOf_iff_prefix] at h1
    obtain ⟨t, rfl⟩ := h1
    simp at h2
    simp [h2]
  · rintro rfl
    simp

theorem search_beginText (body : Regex) (ncap : Nat) :
    ∀ (rest : List Char) (pos : Nat), search (.concat .beginText body) ncap (pos + 1) rest = none := by
  intro rest
  induction rest with
  | nil => intro pos; simp [search, run]
  | cons c cs ih => intro pos; simp [search, run, ih]

theorem matchString_anchored (e : GoString) (body : Regex) (path : GoString) :
    (Regexp.mk e (.concat .beginText body)).MatchString path =
      !(run body ⟨0, path, List.replicate ((Regex.concat .beginText body).MaxCap + 1) none⟩).isEmpty := by
  unfold Regexp.MatchString Regexp.doExecute Regexp.numSubexp
  cases path with
  | nil =>
    simp only [search, run, if_true, List.flatMap_cons, List.flatMap_nil, List.append_nil]
    cases run body ⟨0, [], List.replicate ((Regex.concat .beginText body).MaxCap + 1) none⟩ <;> simp
  | cons c cs =>
    simp only [search, run, if_true, List.flatMap_cons, List.flatMap_nil, List.append_nil]
    cases run body ⟨0, c :: cs, List.replicate ((Regex.concat .beginText body).MaxCap + 1) none⟩
    · simp [search_beginText]
    · simp

theorem matchString_anchored_literal (e : GoString) (s path : GoString) :
    (Regexp.mk e (.concat .beginText (literalChain s .endText))).MatchString path =
      decide (path = s) := by
  rw [matchString_anchored, run_literalChain]
  by_cases h : path = s
  · have h' := (isPrefixOf_and_drop s path).mpr h
    simp [run, h'.1, h'.2, h]
  · have h' := mt (isPrefixOf_and_drop s path).mp h
    by_cases hp : s.isPrefixOf path = true
    · have hd : ¬ (path.drop s.length).isEmpty = true := fun hd => h' ⟨hp, hd⟩
      simp only [hp, if_true, run, hd, h]
      simp
    · simp [hp, h]

theorem matchString_anchored_twice_literal (e : GoString) (s path : GoString) :
    (Regexp.mk e (.concat .beginText (.concat .beginText
      (literalChain s (.concat .endText .endText))))).MatchString path = decide (path = s) := by
  rw [matchString_anchored]
  simp only [run, if_true, List.flatMap_cons, List.flatMap_nil, List.append_nil, run_literalChain]
  by_cases h : path = s
  · have h' := (isPrefixOf_and_drop s path).mpr h
    simp [run, h'.1, h'.2, h]
  · have h' := mt (isPrefixOf_and_drop s path).mp h
    by_cases hp : s.isPrefixOf path = true
    · have hd : ¬ (path.drop s.length).isEmpty = true := fun hd => h' ⟨hp, hd⟩
      simp only [hp, if_true, run, hd, h]
      simp
    · simp [hp, h]

theorem compile_literal_rule (n o r : GoString) (hn : ∀ c ∈ n, special c = false) (hne : n ≠ [])
    (original : Regexp) (ho : Compile ('^' :: o ++ ['$']) = .ok original) :
    ReplacementConfig.compile ⟨n, o, r⟩ =
      .ok ⟨some ⟨'^' :: n ++ ['$'], .concat .beginText (literalChain n .endText)⟩, original, r⟩ := by
  have hc : Compile ('^' :: n ++ ['$']) =
      .ok ⟨'^' :: n ++ ['$'], .concat .beginText (literalChain n .endText)⟩ := by
    simp only [Compile, parse_anchored_literal n hn]
  unfold ReplacementConfig.compile
  simp only [ne_eq, hne, not_false_eq_true, if_true, hc, ho]

theorem compile_unnamed_rule (o r : GoString) (original : Regexp)
    (ho : Compile ('^' :: o ++ ['$']) = .ok original) :
    ReplacementConfig.compile ⟨[], o, r⟩ = .ok ⟨none, original, r⟩ := by
  unfold ReplacementConfig.compile
  simp only [ne_eq, not_true_eq_false, if_false, ho]

theorem new_single (rc : ReplacementConfig) (cr : compiledReplacement) (name : GoString)
    (h : rc.compile = .ok cr) : New ⟨[rc]⟩ name = .ok ⟨name, ⟨[rc]⟩, [cr]⟩ := by
  simp [New, compileAll, h]

theorem writeHeader_single (cr : compiledReplacement) (w : ResponseWriter) (statusCode : Int) :
    (responseWriter.mk w [cr]).WriteHeader statusCode =
      some ⟨(w.setCookie.map fun c =>
        if ruleApplies cr c.Name c.Path = true then { c with Path := ruleOutput cr c.Path }
        else c).filterMap Cookie.String,
        some statusCode⟩ := by
  rw [writeHeader_eq]
  simp only [rewritten, pipeline, List.foldl_cons, List.foldl_nil, pipelineStep]
  congr 3
  apply List.map_congr_left
  intro c _
  split <;> rfl

theorem inClass_slash (x : Char) : (inClass [('/', '/')] x != true) = decide (x ≠ '/') := by
  by_cases h : x = '/'
  · subst h; decide
  · have : ¬ ('/' ≤ x ∧ x ≤ '/') := fun ⟨h1, h2⟩ => h (Char.le_antisymm h2 h1)
    simp [inClass, h]

theorem flatMap_endText (l : List MState) :
    l.flatMap (run .endText) = l.filter fun s => s.rest.isEmpty := by
  induction l with
  | nil => rfl
  | cons a l ih =>
    rw [List.flatMap_cons, ih, List.filter_cons]
    by_cases h : a.rest.isEmpty = true <;> simp [run, h]

theorem iterate_stepChar_filter (ok : Char → Bool) :
    ∀ (n pos : Nat) (rest : List Char) (cap : List (Option (Nat × Nat))), rest.length ≤ n →
      (iterate (stepChar ok) true n ⟨pos, rest, cap⟩).filter (fun s => s.rest.isEmpty) =
        if rest ≠ [] ∧ rest.all ok = true then [⟨pos + rest.length, [], cap⟩] else [] := by
  intro n
  induction n with
  | zero =>
    intro pos rest cap h
    have : rest = [] := List.length_eq_zero.mp (Nat.le_zero.mp h)
    simp [iterate, this]
  | succ n ih =>
    intro pos rest cap h
    cases rest with
    | nil => simp [iterate, stepChar]
    | cons x xs =>
      have hlen : xs.length ≤ n := by simpa using h
      by_cases hx : ok x = true
      · simp only [iterate, stepChar, hx, if_true, List.flatMap_cons, List.flatMap_nil,
          List.append_nil, List.length_cons, Nat.lt_succ_self, List.filter_append, ih _ _ _ hlen]
        cases xs with
        | nil => simp [hx]
        | cons y ys => simp [hx, Nat.add_assoc, Nat.add_comm 1]
      · simp [iterate, stepChar, hx]

theorem runPlus_stepChar_filter (ok : Char → Bool) (pos : Nat) (rest : List Char)
    (cap : List (Option (Nat × Nat))) :
    (runPlus (stepChar ok) true ⟨pos, rest, cap⟩).filter (fun s => s.rest.isEmpty) =
      if rest ≠ [] ∧ rest.all ok = true then [⟨pos + rest.length, [], cap⟩] else [] := by
  cases rest with
  | nil => simp [runPlus, stepChar]
  | cons x xs =>
    by_cases hx : ok x = true
    · simp only [runPlus, stepChar, hx, if_true, List.flatMap_cons, List.flatMap_nil,
        List.append_nil, List.length_cons, Nat.lt_succ_self, List.filter_append,
        iterate_stepChar_filter ok _ _ _ _ (Nat.le_refl _)]
      cases xs with
      | nil => simp [hx]
      | cons y ys => simp [hx, Nat.add_assoc, Nat.add_comm 1]
    · simp [runPlus, stepChar, hx]

theorem search_anchored (body : Regex) (ncap : Nat) (path : GoString) :
    search (.concat .beginText body) ncap 0 path =
      ((run body ⟨0, path, List.replicate (ncap + 1) none⟩).head?).map fun s =>
        { s with cap := s.cap.set 0 (some (0, s.pos)) } := by
  cases path with
  | nil =>
    simp only [search, run, if_true, List.flatMap_cons, List.flatMap_nil, List.append_nil]
    cases run body ⟨0, [], List.replicate (ncap + 1) none⟩ <;> simp
  | cons c cs =>
    simp only [search, run, if_true, List.flatMap_cons, List.flatMap_nil, List.append_nil]
    cases run body ⟨0, c :: cs, List.replicate (ncap + 1) none⟩
    · simp [search_beginText]
    · simp

theorem run_segment_end (name : GoString) (pos : Nat) (rest : List Char)
    (cap : List (Option (Nat × Nat))) :
    run (.concat (.capture 1 name (.plus true (.charClass true [('/', '/')]))) .endText)
        ⟨pos, rest, cap⟩ =
      if rest ≠ [] ∧ rest.all (fun x => inClass [('/', '/')] x != true) = true then
        [⟨pos + rest.length, [], cap.set 1 (some (pos, pos + rest.length))⟩]
      else [] := by
  have h0 : run (.concat (.capture 1 name (.plus true (.charClass true [('/', '/')]))) .endText)
      ⟨pos, rest, cap⟩ =
      ((runPlus (stepChar fun x => inClass [('/', '/')] x != true) true ⟨pos, rest, cap⟩).map
        fun s1 : MState => ({ s1 with cap := s1.cap.set 1 (some (pos, s1.pos)) } : MState)).flatMap
        (run .endText) := rfl
  have hcomp : ((fun s : MState => s.rest.isEmpty) ∘ fun s1 : MState =>
      ({ s1 with cap := s1.cap.set 1 (some (pos, s1.pos)) } : MState)) =
      fun s => s.rest.isEmpty := by
    funext s; rfl
  rw [h0, flatMap_endText, List.filter_map, hcomp, runPlus_stepChar_filter]
  split <;> simp

theorem run_segmentPattern_body (path : GoString) (cap : List (Option (Nat × Nat))) :
    run (.concat (.literal '/')
        (.concat (.capture 1 "name".toList (.plus true (.charClass true [('/', '/')]))) .endText))
        ⟨0, path, cap⟩ =
      if isSegmentPath path = true then
        [⟨path.length, [], cap.set 1 (some (1, path.length))⟩]
      else [] := by
  have hall : ∀ s : List Char, s.all (fun x => inClass [('/', '/')] x != true) =
      s.all fun x => x != '/' := by
    intro s
    congr 1
    funext x
    rw [inClass_slash]
    by_cases h : x = '/' <;> simp [h]
  cases path with
  | nil => simp [run, stepChar, isSegmentPath]
  | cons x xs =>
    by_cases hx : x = '/'
    · subst hx
      have h1 : run (.concat (.literal '/')
          (.concat (.capture 1 "name".toList (.plus true (.charClass true [('/', '/')])))
            .endText)) ⟨0, '/' :: xs, cap⟩ =
          run (.concat (.capture 1 "name".toList (.plus true (.charClass true [('/', '/')])))
            .endText) ⟨1, xs, cap⟩ := by
        simp [run, stepChar]
      rw [h1, run_segment_end, hall]
      cases xs with
      | nil => simp [isSegmentPath]
      | cons y ys => simp [isSegmentPath, Nat.add_comm 1]
    · have h2 : isSegmentPath (x :: xs) = false := by
        unfold isSegmentPath
        split
        · rename_i heq
          exact absurd (List.cons.inj heq).1 hx
        · rfl
      simp [run, stepChar, hx, h2]

theorem matchString_segmentPattern (e path : GoString) :
    (Regexp.mk e segmentPattern).MatchString path = isSegmentPath path := by
  unfold segmentPattern
  rw [matchString_anchored, run_segmentPattern_body]
  cases isSegmentPath path <;> simp

theorem findStringSubmatch_segmentPattern (e s : GoString)
    (h : isSegmentPath ('/' :: s) = true) :
    (Regexp.mk e segmentPattern).FindStringSubmatch ('/' :: s) = some ['/' :: s, s] := by
  have hmax : (Regexp.mk e segmentPattern).numSubexp = 1 := rfl
  unfold Regexp.FindStringSubmatch Regexp.doExecute
  rw [hmax]
  unfold segmentPattern
  rw [search_anchored, run_segmentPattern_body, if_pos h]
  simp [List.range_succ, List.take_of_length_le]

theorem isSegmentPath_iff (p : GoString) :
    isSegmentPath p = true ↔ ∃ s, s ≠ [] ∧ '/' ∉ s ∧ p = '/' :: s := by
  constructor
  · intro h
    unfold isSegmentPath at h
    split at h
    · rename_i s
      simp only [Bool.and_eq_true, Bool.not_eq_true', List.isEmpty_eq_false, List.all_eq_true,
        bne_iff_ne, ne_eq] at h
      exact ⟨s, by simpa using h.1, fun hmem => h.2 _ hmem rfl, rfl⟩
    · simp at h
  · rintro ⟨s, hne, hmem, rfl⟩
    simp only [isSegmentPath, Bool.and_eq_true, Bool.not_eq_true', List.all_eq_true, bne_iff_ne,
      ne_eq]
    refine ⟨by simpa using hne, fun x hx hx1 => hmem (hx1 ▸ hx)⟩

theorem ruleOutput_segmentPattern (e s : GoString) (h : isSegmentPath ('/' :: s) = true) :
    ruleOutput ⟨none, ⟨e, segmentPattern⟩, "/new/\x7b\x7bname\x7d\x7d".toList⟩ ('/' :: s) =
      "/new/".toList ++ s := by
  have hc : Contains "/new/\x7b\x7bname\x7d\x7d".toList ['\x7b', '\x7b'] = true := by decide
  have hn : (Regexp.mk e segmentPattern).SubexpNames = [[], "name".toList] := rfl
  unfold ruleOutput
  simp only [hc, if_true, findStringSubmatch_segmentPattern e s h, hn, Option.getD_some]
  simp [substituteGroups, ReplaceAll, replaceFrom]

/-- The loop of `New` compiles every rule in order or stops at the first error:
on success the i-th compiled rule comes from the i-th declared rule, and an
error is the error of some declared rule. -/
theorem compileAll_atomic (rcs : List ReplacementConfig) :
    (∃ crs, compileAll rcs = .ok crs ∧
      List.Forall₂ (fun rc cr => ReplacementConfig.compile rc = .ok cr ∧
        cr.replacement = rc.Replacement) rcs crs) ∨
    (∃ e, compileAll rcs = .error e ∧ ∃ rc ∈ rcs, ReplacementConfig.compile rc = .error e) := by
  induction rcs with
  | nil => exact Or.inl ⟨[], rfl, List.Forall₂.nil⟩
  | cons rc rest ih =>
    have hrepl : ∀ cr, ReplacementConfig.compile rc = .ok cr → cr.replacement = rc.Replacement := by
      intro cr h
      unfold ReplacementConfig.compile at h
      repeat' split at h
      all_goals first
        | (simp only [Except.ok.injEq] at h; rw [← h])
        | simp at h
    cases hc : ReplacementConfig.compile rc with
    | error e =>
      exact Or.inr ⟨e, by simp [compileAll, hc], rc, List.mem_cons_self _ _, hc⟩
    | ok cr =>
      rcases ih with ⟨crs, h1, h2⟩ | ⟨e, h1, rc1, hmem, h2⟩
      · exact Or.inl ⟨cr :: crs, by simp [compileAll, hc, h1],
          List.Forall₂.cons ⟨hc, hrepl cr hc⟩ h2⟩
      · exact Or.inr ⟨e, by simp [compileAll, hc, h1], rc1, List.mem_cons_of_mem _ hmem, h2⟩

/-! ### The fuel of the model is never used up -/

theorem iterate_fuel (step : MState → List MState) (greedy : Bool) :
    ∀ (n m : Nat) (s : MState), s.rest.length ≤ n → s.rest.length ≤ m →
      iterate step greedy n s = iterate step greedy m s := by
  intro n
  induction n with
  | zero =>
    intro m s hn _
    have h0 : s.rest.length = 0 := Nat.le_zero.mp hn
    cases m with
    | zero => rfl
    | succ m => simp [iterate, h0]
  | succ n ih =>
    intro m s hn hm
    cases m with
    | zero =>
      have h0 : s.rest.length = 0 := Nat.le_zero.mp hm
      simp [iterate, h0]
    | succ m =>
      simp only [iterate]
      congr 1
      funext s1
      by_cases hp : s1.rest.length < s.rest.length
      · rw [if_pos hp, if_pos hp, ih m s1 (by omega) (by omega)]
      · rw [if_neg hp, if_neg hp]

theorem splitName_length : ∀ (t : List Char) (name : GoString) (rest : List Char),
    splitName t = some (name, rest) → rest.length < t.length := by
  intro t
  induction t with
  | nil => intro name rest h; simp [splitName] at h
  | cons c t ih =>
    intro name rest h
    unfold splitName at h
    split at h
    · simp only [Option.some.injEq, Prod.mk.injEq] at h
      rw [← h.2]; simp
    · cases hs : splitName t with
      | none => simp [hs] at h
      | some nr =>
        obtain ⟨n1, r1⟩ := nr
        simp only [hs, Option.some.injEq, Prod.mk.injEq] at h
        have := ih n1 r1 hs
        rw [← h.2]; simp; omega

theorem parseEscape_length (t : List Char) (c : Char) (rest : List Char)
    (h : parseEscape t = .ok (c, rest)) : rest.length < t.length := by
  unfold parseEscape at h
  split at h
  · simp at h
  · repeat' split at h
    all_goals simp only [Except.ok.injEq, Prod.mk.injEq, reduceCtorEq] at h
    all_goals (rw [← h.2]; simp)

theorem parseEscape_fuel (t : List Char) : parseEscape t ≠ .error .outOfFuel := by
  unfold parseEscape
  split
  · simp
  · repeat' split
    all_goals simp

theorem parseClassChar_length (t : List Char) (c : Char) (rest : List Char)
    (h : parseClassChar t = .ok (c, rest)) : rest.length < t.length := by
  unfold parseClassChar at h
  split at h
  · simp at h
  · split at h
    · have := parseEscape_length _ _ _ h
      simp; omega
    · simp only [Except.ok.injEq, Prod.mk.injEq] at h
      rw [← h.2]; simp

theorem parseClassChar_fuel (t : List Char) : parseClassChar t ≠ .error .outOfFuel := by
  unfold parseClassChar
  split
  · simp
  · split
    · exact parseEscape_fuel _
    · simp

theorem length_of_isPrefixOf (pre t : List Char) (h : pre.isPrefixOf t = true) :
    pre.length ≤ t.length := by
  rw [List.isPrefixOf_iff_prefix] at h
  exact h.length_le

theorem parseClassItem_adequate (t : List Char) (first : Bool) (cls : List (Char × Char)) :
    parseClassItem t first cls ≠ .error .outOfFuel ∧
    ∀ b r rest, parseClassItem t first cls = .ok (b, r, rest) → rest.length < t.length := by
  unfold parseClassItem
  split
  · rename_i h
    refine ⟨by simp, fun b r rest hr => ?_⟩
    simp only [Except.ok.injEq, Prod.mk.injEq] at hr
    rw [← hr.2.2]
    cases t with
    | nil => simp at h
    | cons x xs => simp
  · split
    · simp
    · split
      · rename_i h
        have := length_of_isPrefixOf _ _ h
        refine ⟨by simp, fun b r rest hr => ?_⟩
        simp only [Except.ok.injEq, Prod.mk.injEq] at hr
        rw [← hr.2.2]; simp at this ⊢; omega
      · split
        · rename_i h
          have := length_of_isPrefixOf _ _ h
          refine ⟨by simp, fun b r rest hr => ?_⟩
          simp only [Except.ok.injEq, Prod.mk.injEq] at hr
          rw [← hr.2.2]; simp at this ⊢; omega
        · split
          · rename_i h
            have := length_of_isPrefixOf _ _ h
            refine ⟨by simp, fun b r rest hr => ?_⟩
            simp only [Except.ok.injEq, Prod.mk.injEq] at hr
            rw [← hr.2.2]; simp at this ⊢; omega
          · split
            · simp
            · cases hc : parseClassChar t with
              | error e =>
                have := parseClassChar_fuel t
                rw [hc] at this
                exact ⟨by simpa using this, fun b r rest hr => by simp at hr⟩
              | ok v =>
                obtain ⟨lo, t1⟩ := v
                have hl := parseClassChar_length t lo t1 hc
                simp only
                split
                · cases hc2 : parseClassChar t1.tail with
                  | error e =>
                    have := parseClassChar_fuel t1.tail
                    rw [hc2] at this
                    exact ⟨by simpa using this, fun b r rest hr => by simp at hr⟩
                  | ok v2 =>
                    obtain ⟨hi, t2⟩ := v2
                    have hl2 := parseClassChar_length _ hi t2 hc2
                    simp only
                    split
                    · simp
                    · refine ⟨by simp, fun b r rest hr => ?_⟩
                      simp only [Except.ok.injEq, Prod.mk.injEq] at hr
                      rw [← hr.2.2]
                      simp only [List.length_tail] at hl2
                      omega
                · refine ⟨by simp, fun b r rest hr => ?_⟩
                  simp only [Except.ok.injEq, Prod.mk.injEq] at hr
                  rw [← hr.2.2]
                  exact hl

theorem parseClassLoop_adequate : ∀ (fuel : Nat) (t : List Char) (first : Bool)
    (cls : List (Char × Char)), t.length < fuel →
      parseClassLoop fuel t first cls ≠ .error .outOfFuel ∧
      ∀ r rest, parseClassLoop fuel t first cls = .ok (r, rest) → rest.length < t.length := by
  intro fuel
  induction fuel with
  | zero => intro t first cls h; omega
  | succ n ih =>
    intro t first cls h
    have hitem := parseClassItem_adequate t first cls
    rw [parseClassLoop]
    cases hc : parseClassItem t first cls with
    | error e =>
      rw [hc] at hitem
      exact ⟨by simpa using hitem.1, fun r rest hr => by simp at hr⟩
    | ok v =>
      obtain ⟨b, cls1, t1⟩ := v
      have hl := hitem.2 b cls1 t1 hc
      cases b with
      | true =>
        refine ⟨by simp, fun r rest hr => ?_⟩
        simp only [Except.ok.injEq, Prod.mk.injEq] at hr
        rw [← hr.2]; exact hl
      | false =>
        have := ih t1 false cls1 (by omega)
        exact ⟨this.1, fun r rest hr => by have := this.2 r rest hr; omega⟩

theorem parseClass_adequate (t : List Char) :
    parseClass t ≠ .error .outOfFuel ∧
    ∀ re rest, parseClass t = .ok (re, rest) → rest.length ≤ t.length := by
  have key : ∀ (neg : Bool) (t1 : List Char), t1.length ≤ t.length →
      (match parseClassLoop (t1.length + 1) t1 true [] with
        | .error e => (.error e : Except ErrorCode (Regex × List Char))
        | .ok (cls, rest) => .ok (.charClass neg cls, rest)) ≠ .error .outOfFuel ∧
      ∀ re rest, (match parseClassLoop (t1.length + 1) t1 true [] with
        | .error e => (.error e : Except ErrorCode (Regex × List Char))
        | .ok (cls, rest) => .ok (.charClass neg cls, rest)) = .ok (re, rest) →
        rest.length ≤ t.length := by
    intro neg t1 hle
    have h := parseClassLoop_adequate (t1.length + 1) t1 true [] (Nat.lt_succ_self _)
    cases hc : parseClassLoop (t1.length + 1) t1 true [] with
    | error e =>
      rw [hc] at h
      exact ⟨by simpa using h.1, fun re rest hr => by simp at hr⟩
    | ok v =>
      obtain ⟨cls, rest⟩ := v
      have := h.2 cls rest hc
      refine ⟨by simp, fun re rest1 hr => ?_⟩
      simp only [Except.ok.injEq, Prod.mk.injEq] at hr
      rw [← hr.2]; omega
  unfold parseClass
  split
  · exact key true _ (by simp)
  · exact key false _ (Nat.le_refl _)

theorem repeatOp_adequate (p : parser) (op : Bool → Regex → Regex) (loop : Bool)
    (after : List Char) (lr : Bool) :
    p.repeatOp op loop after lr ≠ .error .outOfFuel ∧
    ∀ p1 t1, p.repeatOp op loop after lr = .ok (p1, t1) → t1.length ≤ after.length := by
  unfold parser.repeatOp
  generalize hg : (match after with
      | '?' :: t => ((false, t) : Bool × List Char)
      | _ => (true, after)) = ga
  have hga : ga.2.length ≤ after.length := by
    rw [← hg]; split <;> simp
  cases lr
  · cases hcur : p.cur with
    | nil => simp
    | cons sub rest =>
      simp only [Bool.false_eq_true, if_false]
      split
      · simp
      · refine ⟨by simp, fun p1 t1 hr => ?_⟩
        simp only [Except.ok.injEq, Prod.mk.injEq] at hr
        rw [← hr.2]; exact hga
  · simp

theorem step_ok (n : Nat) (p1 : parser) (t1 : List Char) (b : Bool) (h : t1.length ≤ n) :
    (Except.ok (p1, t1, b) : Except ErrorCode (parser × List Char × Bool)) ≠
        .error .outOfFuel ∧
      ∀ p2 t2 b2, (Except.ok (p1, t1, b) : Except ErrorCode (parser × List Char × Bool)) =
        .ok (p2, t2, b2) → t2.length ≤ n := by
  refine ⟨by simp, fun p2 t2 b2 hr => ?_⟩
  simp only [Except.ok.injEq, Prod.mk.injEq] at hr
  rw [← hr.2.1]; exact h

theorem step_error (n : Nat) (e : ErrorCode) (h : e ≠ .outOfFuel) :
    (Except.error e : Except ErrorCode (parser × List Char × Bool)) ≠ .error .outOfFuel ∧
      ∀ p2 t2 b2, (Except.error e : Except ErrorCode (parser × List Char × Bool)) =
        .ok (p2, t2, b2) → t2.length ≤ n := by
  refine ⟨fun hc => h (by injection hc), fun p2 t2 b2 hr => by simp at hr⟩

theorem parseStep_adequate (c : Char) (t : List Char) (lr : Bool) (p : parser) :
    parseStep c t lr p ≠ .error .outOfFuel ∧
    ∀ p1 t1 lr1, parseStep c t lr p = .ok (p1, t1, lr1) → t1.length ≤ t.length := by
  have hE := parseEscape_length t
  have hEf := parseEscape_fuel t
  have hC := parseClass_adequate t
  have hdrop : ∀ k, (t.drop k).length ≤ t.length := fun k => by simp
  unfold parseStep
  by_cases h1 : c = '('
  · rw [if_pos h1]
    split
    · exact step_ok _ _ _ _ (hdrop 2)
    · split
      · cases hs : splitName (List.drop 3 t) with
        | none => exact step_error _ _ (by simp)
        | some v =>
          obtain ⟨name, t2⟩ := v
          have := splitName_length _ _ _ hs
          have := hdrop 3
          simp only
          split
          · exact step_error _ _ (by simp)
          · exact step_ok _ _ _ _ (by omega)
      · split
        · exact step_error _ _ (by simp)
        · exact step_ok _ _ _ _ (Nat.le_refl _)
  rw [if_neg h1]
  by_cases h2 : c = '|'
  · rw [if_pos h2]; exact step_ok _ _ _ _ (Nat.le_refl _)
  rw [if_neg h2]
  by_cases h3 : c = ')'
  · rw [if_pos h3]
    cases p.stack with
    | nil => exact step_error _ _ (by simp)
    | cons f stack => exact step_ok _ _ _ _ (Nat.le_refl _)
  rw [if_neg h3]
  by_cases h4 : c = '^'
  · rw [if_pos h4]; exact step_ok _ _ _ _ (Nat.le_refl _)
  rw [if_neg h4]
  by_cases h5 : c = '$'
  · rw [if_pos h5]; exact step_ok _ _ _ _ (Nat.le_refl _)
  rw [if_neg h5]
  by_cases h6 : c = '.'
  · rw [if_pos h6]; exact step_ok _ _ _ _ (Nat.le_refl _)
  rw [if_neg h6]
  by_cases h7 : c = '['
  · rw [if_pos h7]
    cases hX : parseClass t with
    | error e => exact step_error _ _ fun he => hC.1 (by rw [hX, he])
    | ok v => exact step_ok _ _ _ _ (hC.2 _ _ hX)
  rw [if_neg h7]
  by_cases h8 : c = '*'
  · rw [if_pos h8]
    have hR := repeatOp_adequate p .star true t lr
    cases hX : p.repeatOp .star true t lr with
    | error e => exact step_error _ _ fun he => hR.1 (by rw [hX, he])
    | ok v => exact step_ok _ _ _ _ (hR.2 _ _ hX)
  rw [if_neg h8]
  by_cases h9 : c = '+'
  · rw [if_pos h9]
    have hR := repeatOp_adequate p .plus true t lr
    cases hX : p.repeatOp .plus true t lr with
    | error e => exact step_error _ _ fun he => hR.1 (by rw [hX, he])
    | ok v => exact step_ok _ _ _ _ (hR.2 _ _ hX)
  rw [if_neg h9]
  by_cases h10 : c = '?'
  · rw [if_pos h10]
    have hR := repeatOp_adequate p .quest false t lr
    cases hX : p.repeatOp .quest false t lr with
    | error e => exact step_error _ _ fun he => hR.1 (by rw [hX, he])
    | ok v => exact step_ok _ _ _ _ (hR.2 _ _ hX)
  rw [if_neg h10]
  by_cases h11 : c = '\x7b'
  · rw [if_pos h11]
    cases t with
    | nil => exact step_ok _ _ _ _ (Nat.le_refl _)
    | cons d tl =>
      simp only
      split
      · exact step_error _ _ (by simp)
      · exact step_ok _ _ _ _ (Nat.le_refl _)
  rw [if_neg h11]
  by_cases h12 : c = '\\'
  · rw [if_pos h12]
    by_cases e0 : ['A'].isPrefixOf t = true
    · rw [if_pos e0]; exact step_ok _ _ _ _ (hdrop 1)
    rw [if_neg e0]
    by_cases e1 : ['z'].isPrefixOf t = true
    · rw [if_pos e1]; exact step_ok _ _ _ _ (hdrop 1)
    rw [if_neg e1]
    by_cases e2 : ['d'].isPrefixOf t = true
    · rw [if_pos e2]; exact step_ok _ _ _ _ (hdrop 1)
    rw [if_neg e2]
    by_cases e3 : ['D'].isPrefixOf t = true
    · rw [if_pos e3]; exact step_ok _ _ _ _ (hdrop 1)
    rw [if_neg e3]
    by_cases e4 : ['s'].isPrefixOf t = true
    · rw [if_pos e4]; exact step_ok _ _ _ _ (hdrop 1)
    rw [if_neg e4]
    by_cases e5 : ['S'].isPrefixOf t = true
    · rw [if_pos e5]; exact step_ok _ _ _ _ (hdrop 1)
    rw [if_neg e5]
    by_cases e6 : ['w'].isPrefixOf t = true
    · rw [if_pos e6]; exact step_ok _ _ _ _ (hdrop 1)
    rw [if_neg e6]
    by_cases e7 : ['W'].isPrefixOf t = true
    · rw [if_pos e7]; exact step_ok _ _ _ _ (hdrop 1)
    rw [if_neg e7]
    by_cases e8 : ['C'].isPrefixOf t = true
    · rw [if_pos e8]; exact step_error _ _ (by simp)
    rw [if_neg e8]
    by_cases e9 : (['b'].isPrefixOf t || ['B'].isPrefixOf t || ['Q'].isPrefixOf t ||
        ['E'].isPrefixOf t || ['p'].isPrefixOf t || ['P'].isPrefixOf t) = true
    · rw [if_pos e9]; exact step_error _ _ (by simp)
    rw [if_neg e9]
    cases hX : parseEscape t with
    | error e => exact step_error _ _ fun he => hEf (by rw [hX, he])
    | ok v => exact step_ok _ _ _ _ (Nat.le_of_lt (hE _ _ hX))
  rw [if_neg h12]
  exact step_ok _ _ _ _ (Nat.le_refl _)

theorem parseLoop_adequate : ∀ (fuel : Nat) (t : List Char) (lr : Bool) (p : parser),
    t.length < fuel → parseLoop fuel t lr p ≠ .error .outOfFuel := by
  intro fuel
  induction fuel with
  | zero => intro t lr p h; omega
  | succ n ih =>
    intro t lr p h
    cases t with
    | nil =>
      rw [parseLoop]
      split <;> simp
    | cons c t =>
      rw [parseLoop]
      have hs := parseStep_adequate c t lr p
      cases hc : parseStep c t lr p with
      | error e => rw [hc] at hs; simpa using hs.1
      | ok v =>
        obtain ⟨p1, t1, lr1⟩ := v
        have := hs.2 p1 t1 lr1 hc
        exact ih t1 lr1 p1 (by simp at h; omega)

/-- The fuel given to the parser is never used up. -/
theorem compile_fuel (expr : GoString) : Compile expr ≠ .error .outOfFuel := by
  unfold Compile
  have := parseLoop_adequate (expr.length + 1) expr false ⟨[], [], [], 0⟩ (Nat.lt_succ_self _)
  cases hp : Parse expr with
  | error e =>
    unfold Parse at hp
    rw [hp] at this
    simpa using this
  | ok re => simp

theorem writeHeader_of_no_match (r : responseWriter) (statusCode : Int)
    (h : r.config = [] ∨
      ∀ rule ∈ r.config, ∀ c ∈ r.writer.setCookie, rule.original.MatchString c.Path = false) :
    r.WriteHeader statusCode =
      some ⟨r.writer.setCookie.filterMap Cookie.String, some statusCode⟩ := by
  rw [writeHeader_eq]
  have hid : rewritten r.config r.writer.setCookie = r.writer.setCookie := by
    unfold rewritten
    conv_rhs => rw [← List.map_id r.writer.setCookie]
    apply List.map_congr_left
    intro c hc
    have hp : pipeline r.config c.Name c.Path = c.Path := by
      apply pipeline_of_no_match
      rcases h with h | h
      · simp [h]
      · exact fun rule hrule => h rule hrule c hc
    simp [hp]
  rw [hid]

/-! ### Written values of parsed cookies -/

theorem parsed_path_valid (c : Cookie) (h : parsedCookie c = true) :
    c.Path.all validCookiePathByte = true := by
  simp only [parsedCookie, Bool.and_eq_true] at h
  have h2 := h.2
  rw [List.all_eq_true] at h2 ⊢
  exact fun b hb => validCookiePathByte_of_value b (h2 b hb)

theorem string_of_parsed (c : Cookie) (p : GoString) (h : parsedCookie c = true) :
    ∃ v, Cookie.String { c with Path := p } = some v ∧ v.Name = c.Name ∧ v.Value = c.Value ∧
      v.Path = sanitizeCookiePath p := by
  have h' := h
  simp only [parsedCookie, Bool.and_eq_true] at h'
  obtain ⟨v, hv, hp, hw⟩ := string_of_valid { c with Path := p } h'.1.1
  exact ⟨v, hv, hw.1, by rw [hw.2.1]; exact sanitizeCookieValue_of_valid _ h'.1.2, hp⟩

theorem string_of_parsed_self (c : Cookie) (h : parsedCookie c = true) :
    ∃ v, Cookie.String c = some v ∧ v.Name = c.Name ∧ v.Value = c.Value ∧ v.Path = c.Path := by
  obtain ⟨v, hv, hn, hval, hp⟩ := string_of_parsed c c.Path h
  exact ⟨v, hv, hn, hval, by rw [hp]; exact sanitizeCookiePath_of_valid _ (parsed_path_valid c h)⟩

/-! ## The claims -/

/-- C1, as stated, at a concrete input: with the literal pattern `/old` and the
template `/new;x`, which holds no `{{`, the cookie whose path is exactly `/old`
is emitted with the path `/newx`, not with the template. -/
theorem exact_match_literal_counterexample :
    "/old".toList.all (fun c => !special c) = true ∧
    Contains "/new;x".toList ['\x7b', '\x7b'] = false ∧
    ∃ f, New ⟨[⟨[], "/old".toList, "/new;x".toList⟩]⟩ [] = .ok f ∧
      (f.ServeHTTP ⟨[exampleCookie "test".toList "/old".toList], none⟩).WriteHeader 200 =
        some ⟨[exampleCookie "test".toList "/newx".toList], some 200⟩ ∧
      "/newx".toList ≠ "/new;x".toList :=
  ⟨by decide, by decide, _, rfl, by decide, by decide⟩

/-- C1, amended: for a pattern `s` of literal characters and a template `r` without
placeholders, the filter built from the rule with original `s`, or with the
already anchored original `^s$`, hands to `http.SetCookie` every cookie whose
path is exactly `s` with the path `r`, and every other cookie as it is; a parsed
cookie is emitted with its name and value and with the path `r` without the
bytes that are invalid in a cookie path (`r` itself when it has none) in the
first case, with its own path in the second. -/
theorem exact_match_literal (s r : GoString) (hs : ∀ c ∈ s, special c = false)
    (hr : Contains r ['\x7b', '\x7b'] = false) (original : GoString)
    (ho : original = s ∨ original = '^' :: s ++ ['$']) (name : GoString) :
    ∃ f, New ⟨[⟨[], original, r⟩]⟩ name = .ok f ∧
      (∀ (w : ResponseWriter) (statusCode : Int),
        (f.ServeHTTP w).WriteHeader statusCode =
          some ⟨(w.setCookie.map fun c =>
            if c.Path = s then { c with Path := r } else c).filterMap Cookie.String,
            some statusCode⟩) ∧
      (∀ (c : Cookie) (status0 : Option Int) (statusCode : Int), parsedCookie c = true →
        ∃ v, (f.ServeHTTP ⟨[c], status0⟩).WriteHeader statusCode =
            some ⟨[v], some statusCode⟩ ∧
          v.Name = c.Name ∧ v.Value = c.Value ∧
          v.Path = if c.Path = s then sanitizeCookiePath r else c.Path) ∧
      (r.all validCookiePathByte = true → sanitizeCookiePath r = r) := by
  have key : ∀ f : rewriteBody,
      (∀ (w : ResponseWriter) (statusCode : Int),
        (f.ServeHTTP w).WriteHeader statusCode =
          some ⟨(w.setCookie.map fun c =>
            if c.Path = s then { c with Path := r } else c).filterMap Cookie.String,
            some statusCode⟩) →
      ∀ (c : Cookie) (status0 : Option Int) (statusCode : Int), parsedCookie c = true →
        ∃ v, (f.ServeHTTP ⟨[c], status0⟩).WriteHeader statusCode =
            some ⟨[v], some statusCode⟩ ∧
          v.Name = c.Name ∧ v.Value = c.Value ∧
          v.Path = if c.Path = s then sanitizeCookiePath r else c.Path := by
    intro f hf c status0 statusCode hc
    rw [hf]
    by_cases hp : c.Path = s
    · obtain ⟨v, hv, hn, hval, hpath⟩ := string_of_parsed c r hc
      exact ⟨v, by simp [hp, hv], hn, hval, by simp [hp, hpath]⟩
    · obtain ⟨v, hv, hn, hval, hpath⟩ := string_of_parsed_self c hc
      exact ⟨v, by simp [hp, hv], hn, hval, by simp [hp, hpath]⟩
  rcases ho with rfl | rfl
  · have hw : ∀ (w : ResponseWriter) (statusCode : Int),
        ((rewriteBody.mk name ⟨[⟨[], original, r⟩]⟩
          [⟨none, ⟨'^' :: original ++ ['$'],
            .concat .beginText (literalChain original .endText)⟩, r⟩]).ServeHTTP w).WriteHeader
          statusCode =
          some ⟨(w.setCookie.map fun c =>
            if c.Path = original then { c with Path := r } else c).filterMap Cookie.String,
            some statusCode⟩ := by
      intro w statusCode
      simp only [rewriteBody.ServeHTTP, writeHeader_single, ruleApplies, ruleOutput, hr,
        matchString_anchored_literal]
      simp
    exact ⟨_, new_single _ _ name (compile_unnamed_rule _ r _ (by
      simp only [Compile, parse_anchored_literal _ hs])), hw, key _ hw,
      sanitizeCookiePath_of_valid r⟩
  · have hw : ∀ (w : ResponseWriter) (statusCode : Int),
        ((rewriteBody.mk name ⟨[⟨[], '^' :: s ++ ['$'], r⟩]⟩
          [⟨none, ⟨'^' :: ('^' :: s ++ ['$']) ++ ['$'],
            .concat .beginText (.concat .beginText
              (literalChain s (.concat .endText .endText)))⟩, r⟩]).ServeHTTP w).WriteHeader
          statusCode =
          some ⟨(w.setCookie.map fun c =>
            if c.Path = s then { c with Path := r } else c).filterMap Cookie.String,
            some statusCode⟩ := by
      intro w statusCode
      simp only [rewriteBody.ServeHTTP, writeHeader_single, ruleApplies, ruleOutput, hr,
        matchString_anchored_twice_literal]
      simp
    exact ⟨_, new_single _ _ name (compile_unnamed_rule _ r _ (by
      simp only [Compile, parse_anchored_twice_literal _ hs])), hw, key _ hw,
      sanitizeCookiePath_of_valid r⟩

theorem exact_match_literal_witness :
    ∃ f, New ⟨[⟨[], "/old".toList, "/new".toList⟩]⟩ [] = .ok f ∧
      (∀ (w : ResponseWriter) (statusCode : Int),
        (f.ServeHTTP w).WriteHeader statusCode =
          some ⟨(w.setCookie.map fun c =>
            if c.Path = "/old".toList then { c with Path := "/new".toList }
            else c).filterMap Cookie.String,
            some statusCode⟩) ∧
      (∀ (c : Cookie) (status0 : Option Int) (statusCode : Int), parsedCookie c = true →
        ∃ v, (f.ServeHTTP ⟨[c], status0⟩).WriteHeader statusCode =
            some ⟨[v], some statusCode⟩ ∧
          v.Name = c.Name ∧ v.Value = c.Value ∧
          v.Path = if c.Path = "/old".toList then sanitizeCookiePath "/new".toList
            else c.Path) ∧
      ("/new".toList.all validCookiePathByte = true →
        sanitizeCookiePath "/new".toList = "/new".toList) :=
  exact_match_literal "/old".toList "/new".toList (by decide) (by decide) "/old".toList
    (Or.inl rfl) []

/-- C2: for the rule with original `/(?P<name>[^/]+)` and replacement
`/new/{{name}}`, a cookie whose path is `/s`, with `s` non-empty and free of `/`,
is handed to `http.SetCookie` with the path `/new/s`, and a cookie with any other
path as it is; a parsed cookie is emitted with its name and value and with the
path `/new/s` in the first case, with its own path in the second. -/
theorem named_capture_substitution (name : GoString) :
    ∃ f, New ⟨[⟨[], "/(?P<name>[^/]+)".toList, "/new/\x7b\x7bname\x7d\x7d".toList⟩]⟩ name =
        .ok f ∧
      (∀ (s : GoString) (c : Cookie) (status0 : Option Int) (statusCode : Int),
        s ≠ [] → '/' ∉ s → c.Path = '/' :: s →
        (f.ServeHTTP ⟨[c], status0⟩).WriteHeader statusCode =
          some ⟨[{ c with Path := "/new/".toList ++ s }].filterMap Cookie.String,
            some statusCode⟩) ∧
      (∀ (c : Cookie) (status0 : Option Int) (statusCode : Int),
        (¬ ∃ s, s ≠ [] ∧ '/' ∉ s ∧ c.Path = '/' :: s) →
        (f.ServeHTTP ⟨[c], status0⟩).WriteHeader statusCode =
          some ⟨[c].filterMap Cookie.String, some statusCode⟩) ∧
      (∀ (s : GoString) (c : Cookie) (status0 : Option Int) (statusCode : Int),
        parsedCookie c = true → s ≠ [] → '/' ∉ s → c.Path = '/' :: s →
        ∃ v, (f.ServeHTTP ⟨[c], status0⟩).WriteHeader statusCode =
            some ⟨[v], some statusCode⟩ ∧
          v.Name = c.Name ∧ v.Value = c.Value ∧ v.Path = "/new/".toList ++ s) ∧
      (∀ (c : Cookie) (status0 : Option Int) (statusCode : Int),
        parsedCookie c = true → (¬ ∃ s, s ≠ [] ∧ '/' ∉ s ∧ c.Path = '/' :: s) →
        ∃ v, (f.ServeHTTP ⟨[c], status0⟩).WriteHeader statusCode =
            some ⟨[v], some statusCode⟩ ∧
          v.Name = c.Name ∧ v.Value = c.Value ∧ v.Path = c.Path) := by
  have hcomp : Compile ('^' :: "/(?P<name>[^/]+)".toList ++ ['$']) =
      .ok ⟨"^/(?P<name>[^/]+)$".toList, segmentPattern⟩ := by decide
  have h1 : ∀ (s : GoString) (c : Cookie) (status0 : Option Int) (statusCode : Int),
      s ≠ [] → '/' ∉ s → c.Path = '/' :: s →
      ((rewriteBody.mk name
          ⟨[⟨[], "/(?P<name>[^/]+)".toList, "/new/\x7b\x7bname\x7d\x7d".toList⟩]⟩
          [⟨none, ⟨"^/(?P<name>[^/]+)$".toList, segmentPattern⟩,
            "/new/\x7b\x7bname\x7d\x7d".toList⟩]).ServeHTTP ⟨[c], status0⟩).WriteHeader
        statusCode =
        some ⟨[{ c with Path := "/new/".toList ++ s }].filterMap Cookie.String,
          some statusCode⟩ := by
    intro s c status0 statusCode hne hmem hpath
    have hseg : isSegmentPath ('/' :: s) = true := (isSegmentPath_iff _).mpr ⟨s, hne, hmem, rfl⟩
    simp only [rewriteBody.ServeHTTP, writeHeader_single, List.map_cons, List.map_nil,
      ruleApplies, hpath, matchString_segmentPattern, hseg, Bool.true_and, if_true,
      ruleOutput_segmentPattern _ s hseg]
  have h2 : ∀ (c : Cookie) (status0 : Option Int) (statusCode : Int),
      (¬ ∃ s, s ≠ [] ∧ '/' ∉ s ∧ c.Path = '/' :: s) →
      ((rewriteBody.mk name
          ⟨[⟨[], "/(?P<name>[^/]+)".toList, "/new/\x7b\x7bname\x7d\x7d".toList⟩]⟩
          [⟨none, ⟨"^/(?P<name>[^/]+)$".toList, segmentPattern⟩,
            "/new/\x7b\x7bname\x7d\x7d".toList⟩]).ServeHTTP ⟨[c], status0⟩).WriteHeader
        statusCode = some ⟨[c].filterMap Cookie.String, some statusCode⟩ := by
    intro c status0 statusCode hnot
    have hseg : isSegmentPath c.Path = false := by
      cases h : isSegmentPath c.Path
      · rfl
      · exact absurd ((isSegmentPath_iff _).mp h) hnot
    simp only [rewriteBody.ServeHTTP, writeHeader_single, List.map_cons, List.map_nil,
      ruleApplies, matchString_segmentPattern, hseg, Bool.true_and, Bool.false_eq_true, if_false]
  refine ⟨_, new_single _ _ name (compile_unnamed_rule _ _ _ hcomp), h1, h2, ?_, ?_⟩
  · intro s c status0 statusCode hc hne hmem hpath
    rw [h1 s c status0 statusCode hne hmem hpath]
    obtain ⟨v, hv, hn, hval, hp⟩ := string_of_parsed c ("/new/".toList ++ s) hc
    refine ⟨v, by simp only [List.filterMap_cons, hv, List.filterMap_nil], hn, hval, ?_⟩
    rw [hp]
    apply sanitizeCookiePath_of_valid
    have hvalid := parsed_path_valid c hc
    rw [hpath] at hvalid
    simp only [List.all_cons, Bool.and_eq_true] at hvalid
    rw [List.all_append, hvalid.2]
    decide
  · intro c status0 statusCode hc hnot
    rw [h2 c status0 statusCode hnot]
    obtain ⟨v, hv, hn, hval, hp⟩ := string_of_parsed_self c hc
    exact ⟨v, by simp only [List.filterMap_cons, hv, List.filterMap_nil], hn, hval, hp⟩

theorem named_capture_substitution_witness :
    ∃ f, New ⟨[⟨[], "/(?P<name>[^/]+)".toList, "/new/\x7b\x7bname\x7d\x7d".toList⟩]⟩ [] = .ok f ∧
      (f.ServeHTTP ⟨[exampleCookie "test".toList "/old".toList], none⟩).WriteHeader 240 =
        some ⟨[exampleCookie "test".toList "/new/old".toList], some 240⟩ ∧
      (f.ServeHTTP ⟨[exampleCookie "test2".toList "/old/".toList], none⟩).WriteHeader 240 =
        some ⟨[exampleCookie "test2".toList "/old/".toList], some 240⟩ := by
  obtain ⟨f, hf, h1, h2, _, _⟩ := named_capture_substitution []
  refine ⟨f, hf, ?_, ?_⟩
  · rw [h1 "old".toList (exampleCookie "test".toList "/old".toList) none 240
      (by decide) (by decide) rfl]
    decide
  · rw [h2 (exampleCookie "test2".toList "/old/".toList) none 240 (by
      rintro ⟨s, _, hmem, hp⟩
      have hs : s = "old/".toList := (List.cons.inj hp).2.symm
      subst hs
      exact hmem (by decide))]
    decide

/-- C3: for a non-empty literal cookie name `n`, the rule with `name_regex = n`
is applied only to cookies whose name is exactly `n` (and to those as the rule
without a name filter is); the rule with an empty `name_regex` is applied to
cookies of every name, whenever its path pattern matches. -/
theorem name_filter (n o r : GoString) (hn : ∀ c ∈ n, special c = false) (hne : n ≠ [])
    (original : Regexp) (ho : Compile ('^' :: o ++ ['$']) = .ok original) (name : GoString) :
    (∃ f, New ⟨[⟨n, o, r⟩]⟩ name = .ok f ∧
      ∀ (w : ResponseWriter) (statusCode : Int),
        (f.ServeHTTP w).WriteHeader statusCode =
          some ⟨(w.setCookie.map fun c =>
            if c.Name = n ∧ original.MatchString c.Path = true then
              { c with Path := ruleOutput ⟨none, original, r⟩ c.Path }
            else c).filterMap Cookie.String,
            some statusCode⟩) ∧
    (∃ f, New ⟨[⟨[], o, r⟩]⟩ name = .ok f ∧
      ∀ (w : ResponseWriter) (statusCode : Int),
        (f.ServeHTTP w).WriteHeader statusCode =
          some ⟨(w.setCookie.map fun c =>
            if original.MatchString c.Path = true then
              { c with Path := ruleOutput ⟨none, original, r⟩ c.Path }
            else c).filterMap Cookie.String,
            some statusCode⟩) := by
  constructor
  · refine ⟨_, new_single _ _ name (compile_literal_rule n o r hn hne original ho),
      fun w statusCode => ?_⟩
    simp only [rewriteBody.ServeHTTP, writeHeader_single, ruleApplies, ruleOutput,
      matchString_anchored_literal]
    simp
  · refine ⟨_, new_single _ _ name (compile_unnamed_rule o r original ho),
      fun w statusCode => ?_⟩
    simp only [rewriteBody.ServeHTTP, writeHeader_single, ruleApplies, ruleOutput]
    simp

theorem name_filter_witness :
    ∃ f, New ⟨[⟨"test".toList, "/old".toList, "/new".toList⟩]⟩ [] = .ok f ∧
      (f.ServeHTTP ⟨[exampleCookie "test".toList "/old".toList,
          exampleCookie "test2".toList "/old".toList], none⟩).WriteHeader 240 =
        some ⟨[exampleCookie "test".toList "/new".toList,
          exampleCookie "test2".toList "/old".toList], some 240⟩ := by
  obtain ⟨f, hf, h⟩ := (name_filter "test".toList "/old".toList "/new".toList (by decide)
    (by decide) ⟨"^/old$".toList, .concat .beginText (literalChain "/old".toList .endText)⟩
    (by decide) []).1
  refine ⟨f, hf, ?_⟩
  rw [h]
  decide

/-- C4: the rule with original `/a|/b` is compiled from the text `^/a|/b$`, whose
anchors bind to one alternative each: the cookie path `/a/admin`, which the
pattern `/a|/b` does not match as a whole, is rewritten; likewise the name
pattern `a|b` lets the rule through for the cookie name `abc`. -/
theorem whole_string_matching_fails_on_alternation :
    (∃ re f, Parse "/a|/b".toList = .ok re ∧ matchesWhole re "/a/admin".toList = false ∧
      New ⟨[⟨[], "/a|/b".toList, "/x".toList⟩]⟩ [] = .ok f ∧
      (f.ServeHTTP ⟨[exampleCookie "test".toList "/a/admin".toList], none⟩).WriteHeader 200 =
        some ⟨[exampleCookie "test".toList "/x".toList], some 200⟩) ∧
    (∃ re f, Parse "a|b".toList = .ok re ∧ matchesWhole re "abc".toList = false ∧
      New ⟨[⟨"a|b".toList, "/old".toList, "/new".toList⟩]⟩ [] = .ok f ∧
      (f.ServeHTTP ⟨[exampleCookie "abc".toList "/old".toList], none⟩).WriteHeader 200 =
        some ⟨[exampleCookie "abc".toList "/new".toList], some 200⟩) :=
  ⟨⟨_, _, rfl, by decide, rfl, by decide⟩, ⟨_, _, rfl, by decide, rfl, by decide⟩⟩

/-- C5, as stated, at a concrete input: for the rules `/old -> /mid`,
`/mid -> /new;x` the left fold of the rules over the path `/old` is `/new;x`,
and the cookie is emitted with the path `/newx`. -/
theorem pipeline_semantics_counterexample :
    ∃ f, New ⟨[⟨[], "/old".toList, "/mid".toList⟩, ⟨[], "/mid".toList, "/new;x".toList⟩]⟩ [] =
        .ok f ∧
      f.compiledReplacements.foldl (pipelineStep "test".toList) "/old".toList =
        "/new;x".toList ∧
      (f.ServeHTTP ⟨[exampleCookie "test".toList "/old".toList], none⟩).WriteHeader 200 =
        some ⟨[exampleCookie "test".toList "/newx".toList], some 200⟩ ∧
      "/newx".toList ≠ "/new;x".toList :=
  ⟨_, rfl, by decide, by decide, by decide⟩

/-- C5, amended: for every rule list and every cookie list, `WriteHeader` hands
each cookie to `http.SetCookie` with the path obtained by folding the rules, left
to right in declaration order, over the cookie's initial path, each rule being
tested against the path left by the rules before it; that path is the output of
the last rule that matched during the traversal (the initial path when none
matched). The path emitted is that path without the bytes that are invalid in a
cookie path, hence that path itself when it has none, and the rules
`/old -> /mid`, `/mid -> /new` take `/old` to `/new`. -/
theorem pipeline_semantics (r : responseWriter) (statusCode : Int) :
    r.WriteHeader statusCode =
        some ⟨(r.writer.setCookie.map fun c =>
          { c with Path := r.config.foldl (pipelineStep c.Name) c.Path }).filterMap
            Cookie.String, some statusCode⟩ ∧
    (∀ c v : Cookie, c.String = some v → v.Path = sanitizeCookiePath c.Path) ∧
    (∀ p : GoString, p.all validCookiePathByte = true → sanitizeCookiePath p = p) ∧
    (∀ name path, r.config.foldl (pipelineStep name) path =
        ((matchTrace r.config name path).getLast?).getD path) ∧
    (∃ f, New ⟨[⟨[], "/old".toList, "/mid".toList⟩, ⟨[], "/mid".toList, "/new".toList⟩]⟩ [] = .ok f ∧
      (f.ServeHTTP ⟨[exampleCookie "test".toList "/old".toList], none⟩).WriteHeader 200 =
        some ⟨[exampleCookie "test".toList "/new".toList], some 200⟩) :=
  ⟨writeHeader_eq r statusCode, fun c v h => (string_path c v h).1,
    sanitizeCookiePath_of_valid,
    fun name path => pipeline_eq_last_of_trace r.config name path, ⟨_, rfl, by decide⟩⟩

theorem pipeline_semantics_witness :
    sanitizeCookiePath "/new".toList = "/new".toList :=
  (pipeline_semantics ⟨⟨[], none⟩, []⟩ 200).2.2.1 "/new".toList (by decide)

/-- C6: for the rule with original `(?P<a>.*)/(?P<b>.*)` and template `{{a}}`, on
the cookie path `{{b}}/x`, the code replaces `{{a}}` by the captured text `{{b}}`
and then replaces that inserted text by the text of group `b`, giving `x`, where
substitution of the template's placeholders at once gives `{{b}}`. -/
theorem placeholder_substitution_rescans_inserted_text :
    ∃ f cr, New ⟨[⟨[], "(?P<a>.*)/(?P<b>.*)".toList, "\x7b\x7ba\x7d\x7d".toList⟩]⟩ [] = .ok f ∧
      f.compiledReplacements = [cr] ∧
      cr.original.SubexpNames = [[], "a".toList, "b".toList] ∧
      cr.original.FindStringSubmatch "\x7b\x7bb\x7d\x7d/x".toList =
        some ["\x7b\x7bb\x7d\x7d/x".toList, "\x7b\x7bb\x7d\x7d".toList, "x".toList] ∧
      (f.ServeHTTP ⟨[exampleCookie "test".toList "\x7b\x7bb\x7d\x7d/x".toList], none⟩).WriteHeader
          200 = some ⟨[exampleCookie "test".toList "x".toList], some 200⟩ ∧
      substituteAtOnce cr.original.SubexpNames
        ((cr.original.FindStringSubmatch "\x7b\x7bb\x7d\x7d/x".toList).getD []) 0 cr.replacement =
        "\x7b\x7bb\x7d\x7d".toList :=
  ⟨_, _, rfl, rfl, by decide, by decide, by decide, by decide⟩

/-- C8: the pattern `\` is not a valid regular expression (trailing backslash),
yet `New` returns a filter for the rule whose original is `\`: the text compiled
is `^\$`, in which the backslash escapes the closing anchor, and the filter
rewrites the cookie path `$`. -/
theorem new_accepts_invalid_pattern :
    Compile "\\".toList = .error .ErrTrailingBackslash ∧
    ∃ f, New ⟨[⟨[], "\\".toList, "/x".toList⟩]⟩ [] = .ok f ∧
      f.compiledReplacements.length = 1 ∧
      (f.ServeHTTP ⟨[exampleCookie "test".toList "$".toList], none⟩).WriteHeader 200 =
        some ⟨[exampleCookie "test".toList "/x".toList], some 200⟩ :=
  ⟨by decide, _, rfl, rfl, by decide⟩

/-- C9: for the single rule with original `/api|/app`, no rule's path pattern
matches the cookie path `/api/v1` as a whole, yet the cookie is not emitted as
the next handler set it: the text compiled is `^/api|/app$`, whose first
alternative matches the start of the path, and the path becomes `/`. -/
theorem pass_through_fails_on_alternation :
    ∃ re f, Parse "/api|/app".toList = .ok re ∧ matchesWhole re "/api/v1".toList = false ∧
      New ⟨[⟨[], "/api|/app".toList, "/".toList⟩]⟩ [] = .ok f ∧
      (f.ServeHTTP ⟨[exampleCookie "session".toList "/api/v1".toList], none⟩).WriteHeader 200 =
        some ⟨[exampleCookie "session".toList "/".toList], some 200⟩ ∧
      exampleCookie "session".toList "/".toList ≠
        exampleCookie "session".toList "/api/v1".toList :=
  ⟨_, _, rfl, by decide, rfl, by decide, by decide⟩

/-- C10: whenever a rule's path pattern reports a match on a path, the submatch
list for that path is present and has as many entries as the list of
subexpression names, so `matchGroups[i]` is in bounds at every index of that
list; and `WriteHeader` never panics. -/
theorem capture_group_indexing_safe (replacement : compiledReplacement) (path : GoString)
    (h : replacement.original.MatchString path = true) :
    (∃ matchGroups, replacement.original.FindStringSubmatch path = some matchGroups ∧
      matchGroups.length = replacement.original.SubexpNames.length ∧
      ∀ i, i < replacement.original.SubexpNames.length → (matchGroups[i]?).isSome = true) ∧
    (∃ p, substituteGroups ((replacement.original.FindStringSubmatch path).getD []) 0
      replacement.original.SubexpNames replacement.replacement = some p) ∧
    ∀ (r : responseWriter) (statusCode : Int), (r.WriteHeader statusCode).isSome = true := by
  refine ⟨?_, substituteGroups_of_match replacement path h, fun r statusCode => by
    simp [writeHeader_eq]⟩
  obtain ⟨mg, hmg, hlen⟩ := findStringSubmatch_of_match replacement.original path h
  refine ⟨mg, hmg, by rw [hlen, subexpNames_length], fun i hi => ?_⟩
  rw [subexpNames_length, ← hlen] at hi
  simp [List.getElem?_eq_getElem hi]

theorem capture_group_indexing_safe_witness :
    ∃ p, substituteGroups
      (((Regexp.mk "^/(?P<name>[^/]+)$".toList (.concat .beginText (.concat (.literal '/')
        (.concat (.capture 1 "name".toList (.plus true (.charClass true [('/', '/')])))
          .endText)))).FindStringSubmatch "/old".toList).getD []) 0
      (Regexp.mk "^/(?P<name>[^/]+)$".toList (.concat .beginText (.concat (.literal '/')
        (.concat (.capture 1 "name".toList (.plus true (.charClass true [('/', '/')])))
          .endText)))).SubexpNames "/new/\x7b\x7bname\x7d\x7d".toList = some p :=
  (capture_group_indexing_safe
    ⟨none, ⟨"^/(?P<name>[^/]+)$".toList, .concat .beginText (.concat (.literal '/')
      (.concat (.capture 1 "name".toList (.plus true (.charClass true [('/', '/')])))
        .endText))⟩, "/new/\x7b\x7bname\x7d\x7d".toList⟩
    "/old".toList (by decide)).2.1

end TraefikCookiePathReplacement
